import Mathlib

/-!
Verification development for the GraphAnon `LabelledGraph` component
(`src/labelled_graph/labelled_graph.cpp`).

The graph state is embedded shallowly: `uint32_t` counters become `ℕ`
(with explicit `% 2 ^ 32` where 32-bit wraparound matters), the
`std::vector<std::unordered_set<uint32_t>>` adjacency structure becomes a
`List (List ℕ)`, and the process-wide `rand()` source becomes an explicit
stream `r : ℕ → ℕ` indexed by the number of draws made so far.

The repository ships only `labelled_graph.cpp`; the `UnlabelledGraph`
substrate (`add_edge`, `add_random_edge`, `is_complete`) and the
`LabelDistribution` class (`distance`, `get_deficiencies`) are declared
but their sources are absent, so those operations are modelled from the
specification (each such definition carries a doc comment starting with
`Modelled from the spec:`).
-/

/-- The `LabelledGraph` object state: vertex count `n_`, label alphabet
size `l_`, the per-vertex label vector `vertex_labels_`, the adjacency
structure `adjacency_list_` and the edge counter `m_`. -/
structure LabelledGraph where
  n : ℕ
  l : ℕ
  vertex_labels : List ℕ
  adjacency_list : List (List ℕ)
  m : ℕ
deriving Repr, DecidableEq

/-- Read the adjacency set of vertex `v` (`adjacency_list_[v]`). -/
def LabelledGraph.adjOf (g : LabelledGraph) (v : ℕ) : List ℕ :=
  g.adjacency_list.getD v []

/-- Read the label of vertex `v` (`vertex_labels_[v]`). -/
def LabelledGraph.labelOf (g : LabelledGraph) (v : ℕ) : ℕ :=
  g.vertex_labels.getD v 0

/-- Modelled from the spec: `add_edge(u, v) -> bool` of the (absent)
`UnlabelledGraph` substrate — "true on success; false if already adjacent
or `u==v`"; insertion is symmetric ("inserting (u,v) makes v a neighbor
of u and u a neighbor of v") and increments the edge count. -/
def LabelledGraph.add_edge (g : LabelledGraph) (u v : ℕ) : LabelledGraph × Bool :=
  if u = v ∨ v ∈ g.adjOf u then (g, false)
  else
    ({ g with
        adjacency_list :=
          (g.adjacency_list.set u (v :: g.adjOf u)).set v (u :: g.adjOf v),
        m := g.m + 1 }, true)

/-- The list of non-adjacent unordered pairs `(u, v)` with
`u < v < n`, used to model random-edge selection and completeness. -/
def LabelledGraph.nonAdjacentPairs (g : LabelledGraph) : List (ℕ × ℕ) :=
  (List.flatten ((List.range g.n).map (fun u =>
    ((List.range g.n).filter (fun v => u < v ∧ v ∉ g.adjOf u)).map (fun v => (u, v)))))

/-- Modelled from the spec: `is_complete() -> bool` of the (absent)
`UnlabelledGraph` substrate — true when no more edges can be added,
i.e. every pair of distinct vertices is adjacent. -/
def LabelledGraph.is_complete (g : LabelledGraph) : Bool :=
  g.nonAdjacentPairs.isEmpty

/-- Modelled from the spec: `add_random_edge()` of the (absent)
`UnlabelledGraph` substrate — "adds an edge between two distinct,
currently non-adjacent vertices chosen uniformly at random among
non-adjacent pairs; no-op if the graph is complete".  The draw `x`
selects the pair. -/
def LabelledGraph.add_random_edge (g : LabelledGraph) (x : ℕ) : LabelledGraph :=
  let ps := g.nonAdjacentPairs
  if ps.isEmpty then g
  else
    let p := ps.getD (x % ps.length) (0, 0)
    (g.add_edge p.1 p.2).1

/-- Modelled from the spec: the `LabelDistribution` container — "a
fixed-length ordered sequence of `l` non-negative integer counts". -/
structure LabelDistribution where
  counts : List ℕ
deriving Repr, DecidableEq

/-- Modelled from the spec: the proportion of label `i` in a
distribution (count over population size), as an exact rational in
place of the C++ `float`. -/
def LabelDistribution.freq (d : LabelDistribution) (i : ℕ) : ℚ :=
  (d.counts.getD i 0 : ℚ) / (d.counts.sum : ℚ)

/-- Modelled from the spec: `distance(other)` — "a symmetric
statistical-distance measure between two normalized distributions of
equal length (e.g., total-variation distance: half the sum of absolute
differences of per-label proportions)". -/
def LabelDistribution.distance (d e : LabelDistribution) : ℚ :=
  (1 / 2) * ((List.range d.counts.length).map (fun i => |d.freq i - e.freq i|)).sum

/-- Modelled from the spec: `deficiencies(global, alpha)` — "for each
label `i`, compare this distribution's proportion of label `i` against
`global`'s proportion of label `i`; set bit `i` when this
distribution's proportion is below `global`'s proportion by more than
the slack that `alpha` allows".  The slack is taken to be `alpha`
itself, which also validates "returns 0 when the distribution already
satisfies alpha-proximity against `global`". -/
def LabelDistribution.get_deficiencies (d glob : LabelDistribution) (α : ℚ) : ℕ :=
  (List.range d.counts.length).foldl
    (fun acc i => if glob.freq i - d.freq i > α then acc ||| (2 ^ i) else acc) 0

/-- Increment `counts[lab]` (the `++counts[ *it ]` step of the
distribution builders; out-of-range labels, undefined behaviour in the
C++, leave the vector unchanged). -/
def bumpCount (counts : List ℕ) (lab : ℕ) : List ℕ :=
  counts.set lab (counts.getD lab 0 + 1)

/-- `LabelledGraph::get_global_ld`: count the label of every vertex into
a length-`l_` vector of zeros. -/
def LabelledGraph.get_global_ld (g : LabelledGraph) : LabelDistribution :=
  ⟨g.vertex_labels.foldl bumpCount (List.replicate g.l 0)⟩

/-- `LabelledGraph::get_neighbourhood_ld`: count `v`'s own label and the
label of each neighbour of `v` into a length-`l_` vector of zeros. -/
def LabelledGraph.get_neighbourhood_ld (g : LabelledGraph) (v : ℕ) : LabelDistribution :=
  ⟨(g.adjOf v).foldl (fun c u => bumpCount c (g.labelOf u))
    (bumpCount (List.replicate g.l 0) (g.labelOf v))⟩

/-- The `max_distance` computed by `LabelledGraph::is_alpha_proximal`:
fold the per-vertex distances to the global distribution through a
running maximum started at `0` (`if( distance > max_distance )
max_distance = distance`). -/
def LabelledGraph.maxNbhdDistance (g : LabelledGraph) : ℚ :=
  let glob := g.get_global_ld
  (List.range g.n).foldl
    (fun md v =>
      let d := glob.distance (g.get_neighbourhood_ld v)
      if d > md then d else md) 0

/-- `LabelledGraph::is_alpha_proximal`: `return max_distance <= alpha`. -/
def LabelledGraph.is_alpha_proximal (g : LabelledGraph) (α : ℚ) : Bool :=
  g.maxNbhdDistance ≤ α

/-- The set of non-adjacent pairs `(u, v)`, `u < v < n`, as a finite
set; its cardinality is the number of edges still missing from the
complete graph and is the termination measure of both strategies. -/
def missingCount (g : LabelledGraph) : ℕ :=
  (((Finset.range g.n) ×ˢ (Finset.range g.n)).filter
    (fun p => p.1 < p.2 ∧ p.2 ∉ g.adjOf p.1)).card

/-- `LabelledGraph::hopeful`, as a fuel-indexed loop.  One unit of fuel
is one iteration of the `while( leaks_privacy && !is_complete() )` loop;
`none` means the fuel ran out before the loop exited.  `lp` is the
`leaks_privacy` flag and `k` the number of `rand()` draws made so far. -/
def hopefulFuel (α : ℚ) (r : ℕ → ℕ) :
    ℕ → LabelledGraph → Bool → ℕ → Option LabelledGraph
  | 0, _, _, _ => none
  | fuel + 1, g, lp, k =>
    if lp ∧ ¬ g.is_complete then
      if g.is_alpha_proximal α then hopefulFuel α r fuel g false k
      else hopefulFuel α r fuel (g.add_random_edge (r k)) lp (k + 1)
    else some g

/-- `LabelledGraph::hopeful(alpha)`: run the loop with enough fuel for
the graph to become complete (each edge insertion removes one
non-adjacent pair, plus one step to drop the `leaks_privacy` flag and
one step to observe the exit condition). -/
def LabelledGraph.hopeful (g : LabelledGraph) (α : ℚ) (r : ℕ → ℕ) : Option LabelledGraph :=
  hopefulFuel α r (2 * missingCount g + 2) g (! g.is_alpha_proximal α) 0

/-- Structural worker for `lowestSetBit`: halve until an odd number
appears; `fuel` bounds the number of halvings. -/
def lowestSetBitAux : ℕ → ℕ → ℕ
  | 0, _ => 0
  | fuel + 1, x => if x % 2 = 1 then 0 else lowestSetBitAux fuel (x / 2) + 1

/-- Position of the lowest set bit of a positive number (so
`ffs(x) = lowestSetBit x + 1` for `x ≠ 0`); `x` halvings always
suffice to reach the lowest set bit. -/
def lowestSetBit (x : ℕ) : ℕ :=
  lowestSetBitAux x x

/-- Structural worker for `popcount`. -/
def popcountAux : ℕ → ℕ → ℕ
  | 0, _ => 0
  | fuel + 1, x => if x = 0 then 0 else x % 2 + popcountAux fuel (x / 2)

/-- Number of set bits (`__builtin_popcount`). -/
def popcount (x : ℕ) : ℕ :=
  popcountAux x x

/-- The value `const uint32_t l = ffs( defs ) - 1` of one iteration of
the deficient-label loop: the lowest set bit position for `defs ≠ 0`,
and `(uint32_t)(-1) = 2^32 - 1` when `defs = 0` (since `ffs(0) = 0`). -/
def greedyNextLabel (defs : ℕ) : ℕ :=
  if defs = 0 then 2 ^ 32 - 1 else lowestSetBit defs

/-- The update `defs ^= 1 << ( l - 1 )` of the deficient-label loop.
For `l = 0` the C++ shift count `l - 1` wraps to `4294967295` and the
shift is undefined behaviour; it is modelled with the x86 semantics of
masking the shift count to 5 bits, so the count is `(l + 31) % 32`. -/
def greedyClearStep (defs lab : ℕ) : ℕ :=
  defs ^^^ ((1 <<< ((lab + 31) % 32)) % 2 ^ 32)

/-- The sequence of labels `l` examined by the inner
`for( uint32_t i = 0; i < num_def_labels; ++i )` loop of
`run_greedy_iteration`, starting from deficiency mask `defs`, for a
given iteration count. -/
def greedyLabelSeq : ℕ → ℕ → List ℕ
  | 0, _ => []
  | i + 1, defs =>
    let lab := greedyNextLabel defs
    lab :: greedyLabelSeq i (greedyClearStep defs lab)

/-- The set bits of a 32-bit mask, listed in increasing order — the
labels the specification says the deficient-label loop visits. -/
def setBitsAsc (mask : ℕ) : List ℕ :=
  (List.range 32).filter (fun i => Nat.testBit mask i)

/-- The bitmask `1 << vertex_labels_[ v ]` (`v_label_bitmask`), with the
x86 shift-count masking for the (undefined-behaviour) case of a label
at least 32. -/
def labelBitmask (lab : ℕ) : ℕ :=
  (1 <<< (lab % 32)) % 2 ^ 32

/-- The mate test of `run_greedy_iteration`'s innermost loop:
`it_mate->second & v_label_bitmask` and then
`vertex_labels_[ it_mate->first ] == l`. -/
def mateCond (g : LabelledGraph) (vb lab : ℕ) (e : ℕ × ℕ) : Bool :=
  (e.2 &&& vb ≠ 0) ∧ g.labelOf e.1 = lab

/-- The innermost loop of `run_greedy_iteration`
(`for( auto it_mate = it + 1; it_mate != visit_order.end(); ++it_mate )`):
scan the pool entries after the current vertex `v`; on the first entry
meeting `mateCond`, try `add_edge( v, it_mate->first )`; on success flip
`v_label_bitmask` out of the mate's recorded mask and stop, otherwise
keep scanning.  Returns the new graph, the updated remaining pool, and
whether an edge was added (the `++num_edges_added` of the C++). -/
def mateSearch (g : LabelledGraph) (v vb lab : ℕ) :
    List (ℕ × ℕ) → LabelledGraph × List (ℕ × ℕ) × Bool
  | [] => (g, [], false)
  | e :: rest =>
    if mateCond g vb lab e then
      match g.add_edge v e.1 with
      | (g1, true) => (g1, (e.1, e.2 ^^^ vb) :: rest, true)
      | (g1, false) =>
        let res := mateSearch g1 v vb lab rest
        (res.1, e :: res.2.1, res.2.2)
    else
      let res := mateSearch g v vb lab rest
      (res.1, e :: res.2.1, res.2.2)

/-- The deficient-label loop of `run_greedy_iteration`
(`for( uint32_t i = 0; i < num_def_labels; ++i )`): `count` iterations,
each extracting `l = ffs( defs ) - 1`, running the mate search on the
pool entries after the current vertex, and applying
`defs ^= 1 << ( l - 1 )`.  Accumulates the number of edges added. -/
def processLabels (v vb : ℕ) :
    ℕ → ℕ → LabelledGraph → List (ℕ × ℕ) → ℕ → LabelledGraph × List (ℕ × ℕ) × ℕ
  | 0, _, g, rest, acc => (g, rest, acc)
  | count + 1, defs, g, rest, acc =>
    let lab := greedyNextLabel defs
    let res := mateSearch g v vb lab rest
    processLabels v vb count (greedyClearStep defs lab) res.1 res.2.1
      (if res.2.2 then acc + 1 else acc)

/-- The mate search only rewrites masks in the remaining pool; it never
changes its length. -/
theorem mateSearch_rest_length (g : LabelledGraph) (v vb lab : ℕ) (pool : List (ℕ × ℕ)) :
    (mateSearch g v vb lab pool).2.1.length = pool.length := by
  induction pool generalizing g with
  | nil => rfl
  | cons e rest ih =>
    rw [mateSearch]
    by_cases hc : mateCond g vb lab e
    · simp only [hc, if_true]
      rcases hadd : g.add_edge v e.1 with ⟨g1, b⟩
      cases b
      · simpa using ih g1
      · simp
    · simpa [hc] using ih g

/-- The deficient-label loop likewise preserves the length of the
remaining pool. -/
theorem processLabels_rest_length (v vb : ℕ) (count : ℕ) :
    ∀ (defs : ℕ) (g : LabelledGraph) (rest : List (ℕ × ℕ)) (acc : ℕ),
    (processLabels v vb count defs g rest acc).2.1.length = rest.length := by
  induction count with
  | zero => intro defs g rest acc; rfl
  | succ count ih =>
    intro defs g rest acc
    rw [processLabels]
    rw [ih]
    exact mateSearch_rest_length ..

/-- The pool-processing loop of `run_greedy_iteration`
(`for( auto it = visit_order.begin(); it != visit_order.end(); ++it )`):
process each `(v, defs)` pool entry in order; the mate search of each
entry sees (and updates) only the entries after it. -/
def processPool : LabelledGraph → List (ℕ × ℕ) → ℕ → LabelledGraph × ℕ
  | g, [], acc => (g, acc)
  | g, (v, defs) :: rest, acc =>
    let vb := labelBitmask (g.labelOf v)
    let res := processLabels v vb (popcount defs) defs g rest acc
    processPool res.1 res.2.1 res.2.2
termination_by _ pool _ => pool.length
decreasing_by simp only [processLabels_rest_length, List.length_cons]; omega

/-- Swap positions `i` and `j` of a list (the `iter_swap` of
`std::random_shuffle`); indices are always in bounds at the call
sites, and the out-of-bounds case leaves the list unchanged. -/
def listSwap (xs : List (ℕ × ℕ)) (i j : ℕ) : List (ℕ × ℕ) :=
  if i < xs.length ∧ j < xs.length then
    (xs.set i (xs.getD j (0, 0))).set j (xs.getD i (0, 0))
  else xs

/-- The body of `std::random_shuffle` (libstdc++ semantics):
`for( i = 1; i < size; ++i ) swap( a[i], a[rand() % (i+1)] )`, with
`steps` counting the remaining iterations. -/
def shuffleGo (r : ℕ → ℕ) :
    ℕ → ℕ → ℕ → List (ℕ × ℕ) → List (ℕ × ℕ) × ℕ
  | 0, _, k, xs => (xs, k)
  | steps + 1, i, k, xs => shuffleGo r steps (i + 1) (k + 1) (listSwap xs i (r k % (i + 1)))

/-- `std::random_shuffle( visit_order.begin(), visit_order.end() )`,
modelled with the shared `rand()` stream: `size - 1` swap steps. -/
def randomShuffle (xs : List (ℕ × ℕ)) (r : ℕ → ℕ) (k : ℕ) : List (ℕ × ℕ) × ℕ :=
  shuffleGo r (xs.length - 1) 1 k xs

/-- `LabelledGraph::run_greedy_iteration`: build the pool of
`(vertex, deficiency mask)` pairs for the vertices with a non-zero
mask, shuffle it, process it, and return the new graph, the number of
edges added, and the updated draw counter. -/
def LabelledGraph.run_greedy_iteration (g : LabelledGraph) (α : ℚ) (r : ℕ → ℕ) (k : ℕ) :
    LabelledGraph × ℕ × ℕ :=
  let glob := g.get_global_ld
  let visit_order := (List.range g.n).filterMap (fun i =>
    let defs := (g.get_neighbourhood_ld i).get_deficiencies glob α
    if defs > 0 then some (i, defs) else none)
  let sh := randomShuffle visit_order r k
  let res := processPool g sh.1 0
  (res.1, res.2, sh.2)

/-- `LabelledGraph::greedy`, as a fuel-indexed loop (one unit of fuel
per iteration of `while( leaks_privacy && !is_complete() )`; `none`
when the fuel runs out). -/
def greedyFuel (α : ℚ) (r : ℕ → ℕ) :
    ℕ → LabelledGraph → Bool → ℕ → Option LabelledGraph
  | 0, _, _, _ => none
  | fuel + 1, g, lp, k =>
    if lp ∧ ¬ g.is_complete then
      let step := g.run_greedy_iteration α r k
      if step.1.is_alpha_proximal α then greedyFuel α r fuel step.1 false step.2.2
      else if step.2.1 = 0 then
        greedyFuel α r fuel (step.1.add_random_edge (r step.2.2)) lp (step.2.2 + 1)
      else greedyFuel α r fuel step.1 lp step.2.2
    else some g

/-- `LabelledGraph::greedy(alpha)`, with the same fuel bound as
`hopeful`. -/
def LabelledGraph.greedy (g : LabelledGraph) (α : ℚ) (r : ℕ → ℕ) : Option LabelledGraph :=
  greedyFuel α r (2 * missingCount g + 2) g (! g.is_alpha_proximal α) 0

/-- The inner retry loop of the first phase of
`evenly_distribute_labels`: draw `v = rand() % n_` until a vertex with
label `0` is found, assign it `cur`, and repeat until `count` vertices
have been assigned (`--num_assigned` on a collision makes the
`for` loop spin in place).  One unit of fuel per draw; `none` when the
fuel runs out before the quota is met. -/
def edlAssignCount (r : ℕ → ℕ) (n cur : ℕ) :
    ℕ → ℕ → ℕ → List ℕ → Option (List ℕ × ℕ)
  | _, 0, k, labels => some (labels, k)
  | 0, _ + 1, _, _ => none
  | fuel + 1, count + 1, k, labels =>
    let v := r k % n
    if labels.getD v 0 = 0 then
      edlAssignCount r n cur fuel count (k + 1) (labels.set v cur)
    else
      edlAssignCount r n cur fuel (count + 1) (k + 1) labels

/-- The outer loop of the first phase
(`for( uint32_t cur_label = 1; cur_label < l_; ++cur_label )`):
`remaining` labels still to fill starting at `cur`, assigning
`vpl = n_ / l_` vertices to each and decrementing `labels_left` by
`vpl` per label.  Returns the labels, the final `labels_left` and the
draw counter. -/
def edlPhase1 (r : ℕ → ℕ) (n vpl fuel : ℕ) :
    ℕ → ℕ → ℕ → ℕ → List ℕ → Option (List ℕ × ℕ × ℕ)
  | 0, _, labelsLeft, k, labels => some (labels, labelsLeft, k)
  | remaining + 1, cur, labelsLeft, k, labels =>
    match edlAssignCount r n cur fuel vpl k labels with
    | none => none
    | some res => edlPhase1 r n vpl fuel remaining (cur + 1) (labelsLeft - vpl) res.2 res.1

/-- The remainder-label retry loop
(`uint32_t l = rand() % l_; while( s.count( l ) > 0 ) ...`): draw until
a label outside `s` appears. -/
def edlPickLabel (r : ℕ → ℕ) (lcount : ℕ) :
    ℕ → ℕ → List ℕ → Option (ℕ × ℕ)
  | 0, _, _ => none
  | fuel + 1, k, s =>
    let lab := r k % lcount
    if lab ∈ s then edlPickLabel r lcount fuel (k + 1) s else some (lab, k + 1)

/-- The remainder loop of `evenly_distribute_labels`
(`while( labels_left > 0 )`): draw a vertex; if it still has label `0`,
give it a fresh random label recorded in `s`; otherwise, with the
draw-dependent probability `rand() % l_ == 0`, silently give up one
unit of `labels_left` (the "keep it 0" skip). -/
def edlRemainder (r : ℕ → ℕ) (n lcount : ℕ) :
    ℕ → ℕ → ℕ → List ℕ → List ℕ → Option (List ℕ × ℕ)
  | _, 0, k, _, labels => some (labels, k)
  | 0, _ + 1, _, _, _ => none
  | fuel + 1, ll + 1, k, s, labels =>
    let v := r k % n
    if labels.getD v 0 = 0 then
      match edlPickLabel r lcount fuel (k + 1) s with
      | none => none
      | some res =>
        edlRemainder r n lcount fuel ll res.2 (res.1 :: s) (labels.set v res.1)
    else
      if r (k + 1) % lcount = 0 then
        edlRemainder r n lcount fuel ll (k + 2) s labels
      else
        edlRemainder r n lcount fuel (ll + 1) (k + 2) s labels

/-- `LabelledGraph::evenly_distribute_labels()`, fuel-indexed (the C++
retry loops terminate only probabilistically, so for adversarial draw
streams no finite fuel suffices). -/
def LabelledGraph.evenly_distribute_labels (g : LabelledGraph) (r : ℕ → ℕ) (fuel : ℕ) :
    Option LabelledGraph :=
  let vpl := g.n / g.l
  match edlPhase1 r g.n vpl fuel (g.l - 1) 1 (g.n - vpl) 0 g.vertex_labels with
  | none => none
  | some res =>
    match edlRemainder r g.n g.l fuel res.2.1 res.2.2 [] res.1 with
    | none => none
    | some res2 => some { g with vertex_labels := res2.1 }

/-- `LabelledGraph::print`: the emitted text modelled as a list of
lines, each line the list of numbers printed on it — the header
`n_ l_`, then for each vertex its label followed by its adjacency
set. -/
def LabelledGraph.print (g : LabelledGraph) : List (List ℕ) :=
  [g.n, g.l] :: (List.range g.n).map (fun i => g.labelOf i :: g.adjOf i)

/-- The body of one iteration of the file constructor's vertex loop:
read the label from the front of the line
(`iss >> vertex_labels_[ u ]`; a failed extraction writes `0`), then
`add_edge( u, v )` for every remaining number on the line. -/
def parseVertex (g : LabelledGraph) (u : ℕ) (line : List ℕ) : LabelledGraph :=
  let g1 := { g with vertex_labels := g.vertex_labels.set u (line.headD 0) }
  (line.drop 1).foldl (fun h v => (h.add_edge u v).1) g1

/-- `LabelledGraph::LabelledGraph( const std::string filename )`: the
input file modelled as a list of lines of numbers.  Parse `n_` and `l_`
from the first line (a failed `uint32_t` extraction yields `0`); when
`n_ <= 0` report the malformed input and abort construction (`none`),
otherwise initialise the storage (`init()`) and parse exactly `n_`
vertex lines. -/
def LabelledGraph.fromFile (lines : List (List ℕ)) : Option LabelledGraph :=
  let firstLine := lines.headD []
  let n := firstLine.getD 0 0
  let l := firstLine.getD 1 0
  if n = 0 then none
  else
    let g0 : LabelledGraph := ⟨n, l, List.replicate n 0, List.replicate n [], 0⟩
    some ((List.range n).foldl (fun g u => parseVertex g u ((lines.drop 1).getD u [])) g0)

/-- The mate search as the specification describes it: locate the
*first* later pool entry `u` whose recorded mask has the bit for `v`'s
own label set and whose label equals `l`; add the edge `(v, u)`; on
success clear that bit in `u`'s recorded mask and stop; if the edge
already exists, continue the search after `u`; if no mate is found,
leave everything unchanged. -/
def mateSearchSpec (g : LabelledGraph) (v vb lab : ℕ) :
    List (ℕ × ℕ) → LabelledGraph × List (ℕ × ℕ) × Bool
  | [] => (g, [], false)
  | e0 :: rest0 =>
    match (e0 :: rest0).findIdx? (mateCond g vb lab) with
    | none => (g, e0 :: rest0, false)
    | some i =>
      let e := (e0 :: rest0).getD i (0, 0)
      let res := g.add_edge v e.1
      if res.2 then (res.1, (e0 :: rest0).set i (e.1, e.2 ^^^ vb), true)
      else
        let res2 := mateSearchSpec g v vb lab ((e0 :: rest0).drop (i + 1))
        (res2.1, (e0 :: rest0).take (i + 1) ++ res2.2.1, res2.2.2)
termination_by pool => pool.length
decreasing_by
  simp only [List.length_drop, List.length_cons]
  omega

/-- Well-formedness of the embedded graph state, as established by the
constructors and preserved by edge insertion: the storage has size
`n_`, adjacency entries are vertices other than their owner, and
adjacency is symmetric. -/
def WF (g : LabelledGraph) : Prop :=
  g.adjacency_list.length = g.n ∧
  g.vertex_labels.length = g.n ∧
  (∀ a, a < g.n → ∀ b, b ∈ g.adjOf a → b < g.n ∧ b ≠ a) ∧
  (∀ a, a < g.n → ∀ b, b ∈ g.adjOf a → a ∈ g.adjOf b)

instance (g : LabelledGraph) : Decidable (WF g) := by
  unfold WF; infer_instance

/-- Frame relation for the mutating strategies: the vertex count, label
count and every vertex label are unchanged, and every initially present
adjacency is still present (edges are only ever added). -/
def Extends (g g' : LabelledGraph) : Prop :=
  g'.n = g.n ∧ g'.l = g.l ∧ g'.vertex_labels = g.vertex_labels ∧
    ∀ a b : ℕ, b ∈ g.adjOf a → b ∈ g'.adjOf a

/-- A draw stream given by an explicit list (drained draws return 0). -/
def streamOfList (xs : List ℕ) : ℕ → ℕ :=
  fun k => xs.getD k 0

/-- The draw stream `k ↦ k + 1`, under which the Fisher–Yates walk of
`std::random_shuffle` swaps every position with itself, i.e. the
shuffle is the identity permutation. -/
def rSucc : ℕ → ℕ :=
  fun k => k + 1

/-- A 5-vertex, 3-label graph (labels `[0,1,1,2,2]`, edges
`(0,1) (0,2) (0,3) (0,4) (1,4) (2,3)`) on which one greedy iteration at
`alpha = 1/25` raises the worst-case neighbourhood distance from `2/15`
to `3/20`. -/
def exGraphC6 : LabelledGraph :=
  ⟨5, 3, [0, 1, 1, 2, 2], [[4, 3, 2, 1], [4, 0], [3, 0], [2, 0], [1, 0]], 6⟩

/-- A small well-formed graph used to instantiate witnesses: three
vertices, two labels, no edges. -/
def exGraphSmall : LabelledGraph :=
  ⟨3, 2, [0, 0, 1], [[], [], []], 0⟩

/-- A freshly initialised 8-vertex, 3-label graph (all labels `0`), as
`init()` leaves it before `evenly_distribute_labels()`. -/
def exGraphC8 : LabelledGraph :=
  ⟨8, 3, List.replicate 8 0, List.replicate 8 [], 0⟩

/-- The draw list under which `evenly_distribute_labels()` on
`exGraphC8` assigns labels `[1,1,2,2,0,0,0,0]`: four phase-1 draws hit
vertices `0,1,2,3`, then the remainder loop twice hits the labelled
vertex `0` and draws `0 % 3 = 0`, taking the "keep it 0" skip. -/
def drawsC8 : ℕ → ℕ :=
  streamOfList [0, 1, 2, 3, 0, 0, 0, 0]

/-- The labelling produced by `evenly_distribute_labels()` on
`exGraphC8` under `drawsC8`: two skip events leave label `0` on four
vertices, two more than the claimed `floor(8/3) + 1`. -/
def exGraphC8Result : LabelledGraph :=
  ⟨8, 3, [1, 1, 2, 2, 0, 0, 0, 0], List.replicate 8 [], 0⟩

/-- A 4-vertex, 2-label graph with edges `(0,1) (0,2) (2,3)` used to
witness the serialization round trip. -/
def exGraphC10 : LabelledGraph :=
  ⟨4, 2, [0, 0, 1, 1], [[1, 2], [0], [0, 3], [2]], 3⟩

/-- The state of the file constructor's vertex loop after reading the
first `k` lines of `g.print`'s vertex section (`fromFile` applied to
`g.print`, unrolled `k` iterations). -/
def parseState (g : LabelledGraph) (k : ℕ) : LabelledGraph :=
  (List.range k).foldl
    (fun h u =>
      parseVertex h u
        (((List.range g.n).map (fun i => g.labelOf i :: g.adjOf i)).getD u []))
    ⟨g.n, g.l, List.replicate g.n 0, List.replicate g.n [], 0⟩

/-! ### Generic helpers about `List.set` and `List.getD` -/

theorem getD_set_self {α : Type} (l : List α) (i : ℕ) (x d : α) (h : i < l.length) :
    (l.set i x).getD i d = x := by
  simp [List.getD_eq_getElem?_getD, List.getElem?_set_self h]

theorem getD_set_ne {α : Type} (l : List α) (i j : ℕ) (x d : α) (h : i ≠ j) :
    (l.set i x).getD j d = l.getD j d := by
  simp [List.getD_eq_getElem?_getD, List.getElem?_set_ne h]

theorem mem_getD_set_cons (L : List (List ℕ)) (u x a b : ℕ)
    (hb : b ∈ L.getD a []) : b ∈ (L.set u (x :: L.getD u [])).getD a [] := by
  rcases eq_or_ne u a with rfl | hne
  · by_cases hu : u < L.length
    · rw [getD_set_self _ _ _ _ hu]
      exact List.mem_cons_of_mem _ hb
    · rw [List.set_eq_of_length_le (Nat.le_of_not_lt hu)]
      exact hb
  · rw [getD_set_ne _ _ _ _ _ hne]
    exact hb

/-! ### The frame relation `Extends` -/

theorem extendsRefl (g : LabelledGraph) : Extends g g :=
  ⟨rfl, rfl, rfl, fun _ _ h => h⟩

theorem extendsTrans {g1 g2 g3 : LabelledGraph}
    (h12 : Extends g1 g2) (h23 : Extends g2 g3) : Extends g1 g3 :=
  ⟨h23.1.trans h12.1, h23.2.1.trans h12.2.1, h23.2.2.1.trans h12.2.2.1,
    fun a b hb => h23.2.2.2 a b (h12.2.2.2 a b hb)⟩

theorem add_edge_extends (g : LabelledGraph) (u v : ℕ) :
    Extends g (g.add_edge u v).1 := by
  unfold LabelledGraph.add_edge
  split
  · exact extendsRefl g
  · rename_i h
    push_neg at h
    refine ⟨rfl, rfl, rfl, fun a b hb => ?_⟩
    show b ∈ ((g.adjacency_list.set u (v :: g.adjOf u)).set v (u :: g.adjOf v)).getD a []
    have hb1 : b ∈ (g.adjacency_list.set u (v :: g.adjOf u)).getD a [] :=
      mem_getD_set_cons _ _ _ _ _ hb
    have hv : g.adjOf v = (g.adjacency_list.set u (v :: g.adjOf u)).getD v [] :=
      (getD_set_ne _ _ _ _ _ h.1).symm
    rw [hv]
    exact mem_getD_set_cons _ _ _ _ _ hb1

theorem add_edge_fst_of_false (g : LabelledGraph) (u v : ℕ)
    (h : (g.add_edge u v).2 = false) : (g.add_edge u v).1 = g := by
  unfold LabelledGraph.add_edge at h ⊢
  split at h
  · rename_i hc
    simp [hc]
  · simp at h

theorem add_random_edge_eq (g : LabelledGraph) (x : ℕ) :
    g.add_random_edge x =
      if g.nonAdjacentPairs.isEmpty then g
      else
        (g.add_edge (g.nonAdjacentPairs.getD (x % g.nonAdjacentPairs.length) (0, 0)).1
          (g.nonAdjacentPairs.getD (x % g.nonAdjacentPairs.length) (0, 0)).2).1 := rfl

theorem add_random_edge_extends (g : LabelledGraph) (x : ℕ) :
    Extends g (g.add_random_edge x) := by
  rw [add_random_edge_eq]
  split
  · exact extendsRefl g
  · exact add_edge_extends ..

theorem mateSearch_extends (g : LabelledGraph) (v vb lab : ℕ) (pool : List (ℕ × ℕ)) :
    Extends g (mateSearch g v vb lab pool).1 := by
  induction pool generalizing g with
  | nil => exact extendsRefl g
  | cons e rest ih =>
    rw [mateSearch]
    by_cases hc : mateCond g vb lab e
    · simp only [hc, if_true]
      rcases hadd : g.add_edge v e.1 with ⟨g1, b⟩
      have hext : Extends g g1 := by
        have := add_edge_extends g v e.1
        rw [hadd] at this
        exact this
      cases b
      · exact extendsTrans hext (ih g1)
      · exact hext
    · simpa [hc] using ih g

theorem processLabels_extends (v vb : ℕ) (count : ℕ) :
    ∀ (defs : ℕ) (g : LabelledGraph) (rest : List (ℕ × ℕ)) (acc : ℕ),
    Extends g (processLabels v vb count defs g rest acc).1 := by
  induction count with
  | zero => intro defs g rest acc; exact extendsRefl g
  | succ count ih =>
    intro defs g rest acc
    rw [processLabels]
    exact extendsTrans (mateSearch_extends ..) (ih ..)

theorem processPool_extends (g : LabelledGraph) (pool : List (ℕ × ℕ)) (acc : ℕ) :
    Extends g (processPool g pool acc).1 := by
  induction g, pool, acc using processPool.induct with
  | case1 g acc => rw [processPool]; exact extendsRefl g
  | case2 g v defs rest acc vb res ih =>
    rw [processPool]
    exact extendsTrans (processLabels_extends ..) ih

theorem run_greedy_iteration_extends (g : LabelledGraph) (α : ℚ) (r : ℕ → ℕ) (k : ℕ) :
    Extends g (g.run_greedy_iteration α r k).1 := by
  unfold LabelledGraph.run_greedy_iteration
  exact processPool_extends ..

theorem hopefulFuel_extends (α : ℚ) (r : ℕ → ℕ) :
    ∀ (fuel : ℕ) (g : LabelledGraph) (lp : Bool) (k : ℕ) (g' : LabelledGraph),
    hopefulFuel α r fuel g lp k = some g' → Extends g g' := by
  intro fuel
  induction fuel with
  | zero => intro g lp k g' h; exact absurd h (by simp [hopefulFuel])
  | succ fuel ih =>
    intro g lp k g' h
    rw [hopefulFuel] at h
    split at h
    · split at h
      · exact ih _ _ _ _ h
      · exact extendsTrans (add_random_edge_extends _ _) (ih _ _ _ _ h)
    · cases h
      exact extendsRefl g

theorem greedyFuel_succ (α : ℚ) (r : ℕ → ℕ) (fuel : ℕ) (g : LabelledGraph)
    (lp : Bool) (k : ℕ) :
    greedyFuel α r (fuel + 1) g lp k =
      if lp ∧ ¬ g.is_complete then
        (if (g.run_greedy_iteration α r k).1.is_alpha_proximal α then
          greedyFuel α r fuel (g.run_greedy_iteration α r k).1 false
            (g.run_greedy_iteration α r k).2.2
        else if (g.run_greedy_iteration α r k).2.1 = 0 then
          greedyFuel α r fuel
            ((g.run_greedy_iteration α r k).1.add_random_edge
              (r (g.run_greedy_iteration α r k).2.2)) lp
            ((g.run_greedy_iteration α r k).2.2 + 1)
        else greedyFuel α r fuel (g.run_greedy_iteration α r k).1 lp
          (g.run_greedy_iteration α r k).2.2)
      else some g := rfl

theorem greedyFuel_extends (α : ℚ) (r : ℕ → ℕ) :
    ∀ (fuel : ℕ) (g : LabelledGraph) (lp : Bool) (k : ℕ) (g' : LabelledGraph),
    greedyFuel α r fuel g lp k = some g' → Extends g g' := by
  intro fuel
  induction fuel with
  | zero => intro g lp k g' h; exact absurd h (by simp [greedyFuel])
  | succ fuel ih =>
    intro g lp k g' h
    rw [greedyFuel_succ] at h
    split at h
    · split at h
      · exact extendsTrans (run_greedy_iteration_extends _ α r k) (ih _ _ _ _ h)
      · split at h
        · exact extendsTrans
            (extendsTrans (run_greedy_iteration_extends _ α r k) (add_random_edge_extends _ _))
            (ih _ _ _ _ h)
        · exact extendsTrans (run_greedy_iteration_extends _ α r k) (ih _ _ _ _ h)
    · cases h
      exact extendsRefl g

/-- C7: `hopeful`, `greedy` and `run_greedy_iteration` never remove an
edge, never change the vertex count `n` or label count `l`, and never
change any vertex's label: the resulting graph `Extends` the input
(every initially present adjacency is still present, and the label
vector is unchanged). -/
theorem C7_strategies_only_add_edges (g g1 g2 : LabelledGraph) (α : ℚ)
    (r1 r2 r3 : ℕ → ℕ) (k : ℕ)
    (h1 : g.hopeful α r1 = some g1) (h2 : g.greedy α r2 = some g2) :
    Extends g (g.run_greedy_iteration α r3 k).1 ∧ Extends g g1 ∧ Extends g g2 :=
  ⟨run_greedy_iteration_extends g α r3 k,
    hopefulFuel_extends α r1 _ _ _ _ _ h1,
    greedyFuel_extends α r2 _ _ _ _ _ h2⟩

/-- Witness for C7: on a 3-vertex graph with `alpha = 1` both strategies
return immediately, and the frame relation holds concretely. -/
theorem C7_witness :
    Extends exGraphSmall (exGraphSmall.run_greedy_iteration 1 rSucc 0).1 ∧
      Extends exGraphSmall exGraphSmall ∧ Extends exGraphSmall exGraphSmall :=
  C7_strategies_only_add_edges exGraphSmall exGraphSmall exGraphSmall 1 rSucc rSucc rSucc 0
    (by with_unfolding_all decide) (by with_unfolding_all decide)

/-- C6 counterexample: on `exGraphC6` with `alpha = 1/25` (and the
identity shuffle), one `run_greedy_iteration` call *raises* the maximum
per-vertex distance to the global distribution (from `2/15` to `3/20`),
refuting the claim that an iteration never increases it. -/
theorem C6_counterexample :
    (exGraphC6.run_greedy_iteration (1 / 25) rSucc 0).1.maxNbhdDistance >
      exGraphC6.maxNbhdDistance := by
  with_unfolding_all decide

/-- C6 (amended): a greedy iteration never changes the global label
distribution, and the distance of any vertex whose adjacency set it did
not touch is unchanged; only the endpoints of the edges it adds can
change their distance (and the maximum may move either way). -/
theorem C6_amended_untouched_distance_unchanged (g : LabelledGraph) (α : ℚ)
    (r : ℕ → ℕ) (k : ℕ) (w : ℕ)
    (h : (g.run_greedy_iteration α r k).1.adjOf w = g.adjOf w) :
    (g.run_greedy_iteration α r k).1.get_global_ld = g.get_global_ld ∧
    ((g.run_greedy_iteration α r k).1.get_global_ld).distance
        ((g.run_greedy_iteration α r k).1.get_neighbourhood_ld w) =
      (g.get_global_ld).distance (g.get_neighbourhood_ld w) := by
  obtain ⟨hn, hl, hlab, hadj⟩ := run_greedy_iteration_extends g α r k
  have hlabOf : ∀ u, (g.run_greedy_iteration α r k).1.labelOf u = g.labelOf u := by
    intro u; unfold LabelledGraph.labelOf; rw [hlab]
  have hglob : (g.run_greedy_iteration α r k).1.get_global_ld = g.get_global_ld := by
    unfold LabelledGraph.get_global_ld
    rw [hlab, hl]
  have hnb : (g.run_greedy_iteration α r k).1.get_neighbourhood_ld w =
      g.get_neighbourhood_ld w := by
    unfold LabelledGraph.get_neighbourhood_ld
    rw [h, hl]
    simp only [hlabOf]
  exact ⟨hglob, by rw [hglob, hnb]⟩

/-- Witness for C6 (amended): vertex `0` of `exGraphC6` is untouched by
the iteration and keeps its distance. -/
theorem C6_witness :
    (exGraphC6.run_greedy_iteration (1 / 25) rSucc 0).1.get_global_ld =
        exGraphC6.get_global_ld ∧
      ((exGraphC6.run_greedy_iteration (1 / 25) rSucc 0).1.get_global_ld).distance
          ((exGraphC6.run_greedy_iteration (1 / 25) rSucc 0).1.get_neighbourhood_ld 0) =
        (exGraphC6.get_global_ld).distance (exGraphC6.get_neighbourhood_ld 0) :=
  C6_amended_untouched_distance_unchanged exGraphC6 (1 / 25) rSucc 0 0
    (by with_unfolding_all decide)

/-- C4: the deficient-label loop is claimed to visit exactly the labels
set in the mask, each once, in increasing order (locate lowest set bit,
clear it); but `defs ^= 1 << ( l - 1 )` clears the bit *below* the one
just processed (`l = ffs( defs ) - 1` is already 0-based).  For mask
`10` (labels 1 and 3 deficient) the loop visits label 1 and then label
0 — label 0 is not deficient and label 3 is never visited. -/
theorem C4_label_loop_misvisits :
    greedyLabelSeq (popcount 10) 10 = [1, 0] ∧
      setBitsAsc 10 = [1, 3] ∧
      greedyLabelSeq (popcount 10) 10 ≠ setBitsAsc 10 := by
  with_unfolding_all decide

/-- C9: when the first line of the input parses a vertex count of zero
(`n_` is unsigned, so `n_ <= 0` means exactly zero; a failed
extraction also writes zero), the constructor reports the malformed
input and aborts: the result is `none`, no storage is initialised, and
the remaining lines are never consumed — the outcome is the same
whatever `rest` holds. -/
theorem C9_malformed_input_aborts (line : List ℕ) (rest : List (List ℕ))
    (h : line.getD 0 0 = 0) :
    LabelledGraph.fromFile (line :: rest) = none := by
  unfold LabelledGraph.fromFile
  rw [List.getD_eq_getElem?_getD] at h
  simp [h]

/-- Witness for C9 at the concrete input whose first line is `0 5`. -/
theorem C9_witness :
    (([0, 5] : List ℕ).getD 0 0 = 0) ∧
      LabelledGraph.fromFile ([0, 5] :: [[1, 2], [3, 0]]) = none :=
  ⟨rfl, C9_malformed_input_aborts [0, 5] [[1, 2], [3, 0]] rfl⟩

/-- A fold through a running maximum is at most `c` iff the start value
and every folded value are. -/
theorem foldl_runMax_le_iff (f : ℕ → ℚ) (c : ℚ) :
    ∀ (xs : List ℕ) (init : ℚ),
    xs.foldl (fun md v => if f v > md then f v else md) init ≤ c ↔
      init ≤ c ∧ ∀ v ∈ xs, f v ≤ c := by
  intro xs
  induction xs with
  | nil => intro init; simp
  | cons e rest ih =>
    intro init
    rw [List.foldl_cons, ih]
    constructor
    · rintro ⟨h1, h2⟩
      by_cases hc : f e > init
      · rw [if_pos hc] at h1
        refine ⟨le_trans (le_of_lt hc) h1, fun v hv => ?_⟩
        rcases List.mem_cons.mp hv with rfl | hv
        · exact h1
        · exact h2 v hv
      · rw [if_neg hc] at h1
        push_neg at hc
        refine ⟨h1, fun v hv => ?_⟩
        rcases List.mem_cons.mp hv with rfl | hv
        · exact le_trans hc h1
        · exact h2 v hv
    · rintro ⟨h1, h2⟩
      refine ⟨?_, fun v hv => h2 v (List.mem_cons_of_mem _ hv)⟩
      by_cases hc : f e > init
      · rw [if_pos hc]
        exact h2 e (List.mem_cons_self _ _)
      · rw [if_neg hc]
        exact h1

/-- C1: `is_alpha_proximal(alpha)` returns true iff the maximum over
all vertices of the distance between the vertex's closed-neighbourhood
distribution and the global distribution is at most `alpha`; since the
running maximum starts at `0` and the distances are non-negative, this
is equivalently `0 ≤ alpha` together with every vertex's distance being
at most `alpha`. -/
theorem C1_is_alpha_proximal_iff (g : LabelledGraph) (α : ℚ) :
    g.is_alpha_proximal α = true ↔
      (0 ≤ α ∧ ∀ v, v < g.n →
        (g.get_global_ld).distance (g.get_neighbourhood_ld v) ≤ α) := by
  rw [LabelledGraph.is_alpha_proximal, decide_eq_true_eq]
  unfold LabelledGraph.maxNbhdDistance
  show (List.range g.n).foldl
      (fun md v => if (g.get_global_ld).distance (g.get_neighbourhood_ld v) > md
        then (g.get_global_ld).distance (g.get_neighbourhood_ld v) else md) 0 ≤ α ↔ _
  rw [foldl_runMax_le_iff (fun v => (g.get_global_ld).distance (g.get_neighbourhood_ld v)) α]
  simp [List.mem_range]

/-- Witness for C1 on a concrete graph and `alpha = 1`. -/
theorem C1_witness :
    exGraphSmall.is_alpha_proximal 1 = true ↔
      (0 ≤ (1 : ℚ) ∧ ∀ v, v < exGraphSmall.n →
        (exGraphSmall.get_global_ld).distance (exGraphSmall.get_neighbourhood_ld v) ≤ 1) :=
  C1_is_alpha_proximal_iff exGraphSmall 1

/-- Uniform unfolding of `mateSearchSpec` (valid for any pool shape). -/
theorem mateSearchSpec_nil (g : LabelledGraph) (v vb lab : ℕ) :
    mateSearchSpec g v vb lab [] = (g, [], false) := by
  rw [mateSearchSpec]

theorem mateSearch_nil (g : LabelledGraph) (v vb lab : ℕ) :
    mateSearch g v vb lab [] = (g, [], false) := rfl

theorem mateSearchSpec_eq (g : LabelledGraph) (v vb lab : ℕ) (pool : List (ℕ × ℕ)) :
    mateSearchSpec g v vb lab pool =
      match pool.findIdx? (mateCond g vb lab) with
      | none => (g, pool, false)
      | some i =>
        let e := pool.getD i (0, 0)
        let res := g.add_edge v e.1
        if res.2 then (res.1, pool.set i (e.1, e.2 ^^^ vb), true)
        else
          let res2 := mateSearchSpec g v vb lab (pool.drop (i + 1))
          (res2.1, pool.take (i + 1) ++ res2.2.1, res2.2.2) := by
  cases pool with
  | nil => rw [mateSearchSpec_nil]; rfl
  | cons e0 rest0 => rw [mateSearchSpec]

theorem mateSearchSpec_none (g : LabelledGraph) (v vb lab : ℕ) (pool : List (ℕ × ℕ))
    (hfind : pool.findIdx? (mateCond g vb lab) = none) :
    mateSearchSpec g v vb lab pool = (g, pool, false) := by
  rw [mateSearchSpec_eq, hfind]

/-- C5 core: the innermost loop of `run_greedy_iteration` computes
exactly the specification's first-match search. -/
theorem mateSearch_eq_spec (v vb lab : ℕ) :
    ∀ (n : ℕ) (pool : List (ℕ × ℕ)), pool.length ≤ n → ∀ (g : LabelledGraph),
    mateSearch g v vb lab pool = mateSearchSpec g v vb lab pool := by
  intro n
  induction n with
  | zero =>
    intro pool hlen g
    rw [List.length_eq_zero.mp (Nat.le_zero.mp hlen)]
    rw [mateSearch_nil, mateSearchSpec_nil]
  | succ n ih =>
    intro pool hlen g
    cases pool with
    | nil => rw [mateSearch_nil, mateSearchSpec_nil]
    | cons e rest =>
      simp only [List.length_cons, Nat.add_le_add_iff_right] at hlen
      by_cases hc : mateCond g vb lab e
      · have hfind : (e :: rest).findIdx? (mateCond g vb lab) = some 0 := by
          simp [List.findIdx?_cons, hc]
        rw [mateSearch, mateSearchSpec_eq, hfind]
        simp only [hc, if_true, List.getD_cons_zero, List.set_cons_zero,
          List.drop_succ_cons, List.drop_zero, List.take_succ_cons, List.take_zero]
        rcases hadd : g.add_edge v e.1 with ⟨g1, b⟩
        have hg1ext := add_edge_fst_of_false g v e.1
        rw [hadd] at hg1ext
        cases b
        · have hg1 : g1 = g := by simpa using hg1ext
          subst hg1
          simp [ih rest hlen]
        · simp
      · have hstep : (e :: rest).findIdx? (mateCond g vb lab) =
            (rest.findIdx? (mateCond g vb lab)).map (fun k => k + 1) := by
          simp [List.findIdx?_cons, hc]
        rw [mateSearch]
        simp only [hc, if_false]
        rw [ih rest hlen g]
        rcases hrest : rest.findIdx? (mateCond g vb lab) with _ | j
        · rw [mateSearchSpec_none _ _ _ _ _ hrest,
            mateSearchSpec_none _ _ _ _ _ (by rw [hstep, hrest]; rfl)]
          simp
        · have hfind : (e :: rest).findIdx? (mateCond g vb lab) = some (j + 1) := by
            rw [hstep, hrest]; rfl
          rw [mateSearchSpec_eq g v vb lab (e :: rest), hfind]
          rw [mateSearchSpec_eq g v vb lab rest, hrest]
          simp only [List.getD_cons_succ, List.set_cons_succ,
            List.drop_succ_cons, List.take_succ_cons]
          rcases hadd : g.add_edge v (rest.getD j (0, 0)).1 with ⟨g1, b⟩
          cases b
          · simp
          · simp

/-- `v_label_bitmask` is the single bit `2 ^ (label % 32)`. -/
theorem labelBitmask_eq_pow (lab : ℕ) : labelBitmask lab = 2 ^ (lab % 32) := by
  unfold labelBitmask
  rw [Nat.shiftLeft_eq, one_mul]
  exact Nat.mod_eq_of_lt (Nat.pow_lt_pow_right (by norm_num) (Nat.mod_lt _ (by norm_num)))

/-- Flipping a set bit out of a mask clears it. -/
theorem xor_and_two_pow_self (m j : ℕ) (h : m &&& 2 ^ j ≠ 0) :
    (m ^^^ 2 ^ j) &&& 2 ^ j = 0 := by
  have hbit : m.testBit j = true := by
    by_contra hb
    rw [Bool.not_eq_true] at hb
    exact h (by rw [Nat.and_two_pow, hb]; simp)
  rw [Nat.and_two_pow]
  simp [Nat.testBit_xor, hbit, Nat.testBit_two_pow_self]

/-- C5: for the current pool vertex `v` and label `l`, the mate search
scans only the pool entries after `v` (`mateSearch` receives exactly
the remaining pool) and behaves as the first-match specification
`mateSearchSpec`: it selects the first later entry whose recorded mask
contains `v`'s own label bit and whose vertex has label `l`; on a
successful `add_edge` it flips `v`'s label bit out of that entry's
mask (clearing it, by the second conjunct) and stops; if the edge
already exists it continues past that entry; with no mate everything
is unchanged. -/
theorem C5_mate_search_first_match (g : LabelledGraph) (v lab : ℕ) (pool : List (ℕ × ℕ)) :
    mateSearch g v (labelBitmask (g.labelOf v)) lab pool =
      mateSearchSpec g v (labelBitmask (g.labelOf v)) lab pool ∧
    ∀ m : ℕ, m &&& labelBitmask (g.labelOf v) ≠ 0 →
      (m ^^^ labelBitmask (g.labelOf v)) &&& labelBitmask (g.labelOf v) = 0 := by
  constructor
  · exact mateSearch_eq_spec v (labelBitmask (g.labelOf v)) lab pool.length pool le_rfl g
  · intro m hm
    rw [labelBitmask_eq_pow] at hm ⊢
    exact xor_and_two_pow_self m _ hm

/-- Witness for C5 on a concrete pool: vertex 1 of `exGraphC6`
(label 1) searching label 2 among the two later pool entries. -/
theorem C5_witness :
    (mateSearch exGraphC6 1 (labelBitmask (exGraphC6.labelOf 1)) 2 [(2, 6), (3, 6)] =
        mateSearchSpec exGraphC6 1 (labelBitmask (exGraphC6.labelOf 1)) 2 [(2, 6), (3, 6)]) ∧
      (6 ^^^ labelBitmask (exGraphC6.labelOf 1)) &&& labelBitmask (exGraphC6.labelOf 1) = 0 :=
  ⟨(C5_mate_search_first_match exGraphC6 1 2 [(2, 6), (3, 6)]).1,
    (C5_mate_search_first_match exGraphC6 1 2 [(2, 6), (3, 6)]).2 6
      (by with_unfolding_all decide)⟩

/-- Loop invariant of `hopeful`: `leaks_privacy = false` only when the
graph is alpha-proximal; hence any exit state is proximal or
complete. -/
theorem hopefulFuel_post (α : ℚ) (r : ℕ → ℕ) :
    ∀ (fuel : ℕ) (g : LabelledGraph) (lp : Bool) (k : ℕ) (g' : LabelledGraph),
    (lp = false → g.is_alpha_proximal α = true) →
    hopefulFuel α r fuel g lp k = some g' →
    g'.is_alpha_proximal α = true ∨ g'.is_complete = true := by
  intro fuel
  induction fuel with
  | zero => intro g lp k g' _ h; exact absurd h (by simp [hopefulFuel])
  | succ fuel ih =>
    intro g lp k g' hinv h
    rw [hopefulFuel] at h
    split at h
    · rename_i hcond
      split at h
      · rename_i hprox
        exact ih _ _ _ _ (fun _ => hprox) h
      · exact ih _ _ _ _ (fun hlp => absurd hcond.1 (by rw [hlp]; simp)) h
    · rename_i hcond
      cases h
      rw [Classical.not_and_iff_or_not_not] at hcond
      rcases hcond with hlp | hcomp
      · exact Or.inl (hinv (Bool.not_eq_true lp ▸ (by simpa using hlp)))
      · exact Or.inr (by simpa using hcomp)

/-- Loop invariant of `greedy`, as for `hopeful`. -/
theorem greedyFuel_post (α : ℚ) (r : ℕ → ℕ) :
    ∀ (fuel : ℕ) (g : LabelledGraph) (lp : Bool) (k : ℕ) (g' : LabelledGraph),
    (lp = false → g.is_alpha_proximal α = true) →
    greedyFuel α r fuel g lp k = some g' →
    g'.is_alpha_proximal α = true ∨ g'.is_complete = true := by
  intro fuel
  induction fuel with
  | zero => intro g lp k g' _ h; exact absurd h (by simp [greedyFuel])
  | succ fuel ih =>
    intro g lp k g' hinv h
    rw [greedyFuel_succ] at h
    split at h
    · rename_i hcond
      split at h
      · rename_i hprox
        exact ih _ _ _ _ (fun _ => hprox) h
      · split at h
        · exact ih _ _ _ _ (fun hlp => absurd hcond.1 (by rw [hlp]; simp)) h
        · exact ih _ _ _ _ (fun hlp => absurd hcond.1 (by rw [hlp]; simp)) h
    · rename_i hcond
      cases h
      rw [Classical.not_and_iff_or_not_not] at hcond
      rcases hcond with hlp | hcomp
      · exact Or.inl (hinv (Bool.not_eq_true lp ▸ (by simpa using hlp)))
      · exact Or.inr (by simpa using hcomp)

/-- C2: whenever `hopeful(alpha)` or `greedy(alpha)` returns, the
resulting graph is alpha-proximal or complete. -/
theorem C2_terminal_states (g g1 g2 : LabelledGraph) (α : ℚ) (r1 r2 : ℕ → ℕ)
    (h1 : g.hopeful α r1 = some g1) (h2 : g.greedy α r2 = some g2) :
    (g1.is_alpha_proximal α = true ∨ g1.is_complete = true) ∧
      (g2.is_alpha_proximal α = true ∨ g2.is_complete = true) := by
  constructor
  · exact hopefulFuel_post α r1 _ _ _ _ _ (by simp) h1
  · exact greedyFuel_post α r2 _ _ _ _ _ (by simp) h2

/-- Witness for C2: both strategies return on `exGraphSmall` with
`alpha = 1`, and the result is alpha-proximal or complete. -/
theorem C2_witness :
    (exGraphSmall.is_alpha_proximal 1 = true ∨ exGraphSmall.is_complete = true) ∧
      (exGraphSmall.is_alpha_proximal 1 = true ∨ exGraphSmall.is_complete = true) :=
  C2_terminal_states exGraphSmall exGraphSmall exGraphSmall 1 rSucc rSucc
    (by with_unfolding_all decide) (by with_unfolding_all decide)

/-! ### Termination measure lemmas -/

theorem mem_missingFilter (g : LabelledGraph) (u v : ℕ) :
    (u, v) ∈ ((Finset.range g.n ×ˢ Finset.range g.n).filter
      (fun p => p.1 < p.2 ∧ p.2 ∉ g.adjOf p.1)) ↔
    u < g.n ∧ v < g.n ∧ u < v ∧ v ∉ g.adjOf u := by
  simp [Finset.mem_filter, Finset.mem_product, Finset.mem_range]
  tauto

theorem mem_nonAdjacentPairs (g : LabelledGraph) (u v : ℕ) :
    (u, v) ∈ g.nonAdjacentPairs ↔
      u < g.n ∧ v < g.n ∧ u < v ∧ v ∉ g.adjOf u := by
  unfold LabelledGraph.nonAdjacentPairs
  simp [List.mem_flatten, List.mem_map, List.mem_filter, List.mem_range]

theorem is_complete_false_iff (g : LabelledGraph) :
    g.is_complete = false ↔ g.nonAdjacentPairs ≠ [] := by
  unfold LabelledGraph.is_complete
  simp [List.isEmpty_iff]

theorem add_edge_success_props (g : LabelledGraph) (u v : ℕ)
    (hsucc : (g.add_edge u v).2 = true) : u ≠ v ∧ v ∉ g.adjOf u := by
  unfold LabelledGraph.add_edge at hsucc
  split at hsucc
  · exact absurd hsucc (by simp)
  · rename_i h
    push_neg at h
    exact h

theorem add_edge_adjOf (g : LabelledGraph) (u v : ℕ)
    (hlen : g.adjacency_list.length = g.n) (hu : u < g.n) (hv : v < g.n)
    (hne : u ≠ v) (hnadj : v ∉ g.adjOf u) :
    ∀ a, (g.add_edge u v).1.adjOf a =
      if a = u then v :: g.adjOf u else if a = v then u :: g.adjOf v else g.adjOf a := by
  intro a
  have hcond : ¬(u = v ∨ v ∈ g.adjOf u) := by
    push_neg
    exact ⟨hne, hnadj⟩
  unfold LabelledGraph.add_edge
  rw [if_neg hcond]
  show ((g.adjacency_list.set u (v :: g.adjOf u)).set v (u :: g.adjOf v)).getD a [] = _
  rcases eq_or_ne a u with rfl | hau
  · rw [if_pos rfl, getD_set_ne _ _ _ _ _ (Ne.symm hne),
      getD_set_self _ _ _ _ (by rw [hlen]; exact hu)]
  · rw [if_neg hau]
    rcases eq_or_ne a v with rfl | hav
    · rw [if_pos rfl, getD_set_self _ _ _ _ (by simp only [List.length_set, hlen]; exact hv)]
    · rw [if_neg hav, getD_set_ne _ _ _ _ _ (Ne.symm hav), getD_set_ne _ _ _ _ _ (Ne.symm hau)]
      rfl

theorem add_edge_preserves_fields (g : LabelledGraph) (u v : ℕ) :
    (g.add_edge u v).1.n = g.n ∧ (g.add_edge u v).1.l = g.l ∧
      (g.add_edge u v).1.vertex_labels = g.vertex_labels ∧
      (g.add_edge u v).1.adjacency_list.length = g.adjacency_list.length := by
  unfold LabelledGraph.add_edge
  split <;> simp

theorem add_edge_WF (g : LabelledGraph) (u v : ℕ) (hWF : WF g)
    (hu : u < g.n) (hv : v < g.n) (hsucc : (g.add_edge u v).2 = true) :
    WF (g.add_edge u v).1 := by
  obtain ⟨hne, hnadj⟩ := add_edge_success_props g u v hsucc
  obtain ⟨hlen, hlab, hrange, hsym⟩ := hWF
  have hadj := add_edge_adjOf g u v hlen hu hv hne hnadj
  obtain ⟨hn, hl, hvl, hal⟩ := add_edge_preserves_fields g u v
  refine ⟨by rw [hal, hlen, hn], by rw [hvl, hlab, hn], ?_, ?_⟩
  · intro a ha b hb
    rw [hn] at ha
    rw [hadj a] at hb
    by_cases hau : a = u
    · rw [if_pos hau] at hb
      rcases List.mem_cons.mp hb with rfl | hb2
      · exact ⟨by rw [hn]; exact hv, by rw [hau]; exact Ne.symm hne⟩
      · have hr := hrange u hu b hb2
        exact ⟨by rw [hn]; exact hr.1, by rw [hau]; exact hr.2⟩
    · rw [if_neg hau] at hb
      by_cases hav : a = v
      · rw [if_pos hav] at hb
        rcases List.mem_cons.mp hb with rfl | hb2
        · exact ⟨by rw [hn]; exact hu, by rw [hav]; exact hne⟩
        · have hr := hrange v hv b hb2
          exact ⟨by rw [hn]; exact hr.1, by rw [hav]; exact hr.2⟩
      · rw [if_neg hav] at hb
        have hr := hrange a ha b hb
        exact ⟨by rw [hn]; exact hr.1, hr.2⟩
  · intro a ha b hb
    rw [hn] at ha
    rw [hadj a] at hb
    rw [hadj b]
    by_cases hau : a = u
    · rw [if_pos hau] at hb
      rcases List.mem_cons.mp hb with rfl | hb2
      · rw [if_neg (Ne.symm hne), if_pos rfl, hau]
        exact List.mem_cons_self _ _
      · have hmem : u ∈ g.adjOf b := hsym u hu b hb2
        have hr := hrange u hu b hb2
        rcases eq_or_ne b u with rfl | hbu
        · exact absurd rfl hr.2
        · rcases eq_or_ne b v with rfl | hbv
          · rw [if_neg hbu, if_pos rfl, hau]
            exact List.mem_cons_of_mem _ hmem
          · rw [if_neg hbu, if_neg hbv, hau]
            exact hmem
    · rw [if_neg hau] at hb
      by_cases hav : a = v
      · rw [if_pos hav] at hb
        rcases List.mem_cons.mp hb with rfl | hb2
        · rw [if_pos rfl, hav]
          exact List.mem_cons_self _ _
        · have hmem : v ∈ g.adjOf b := hsym v hv b hb2
          have hr := hrange v hv b hb2
          rcases eq_or_ne b u with rfl | hbu
          · exact absurd hmem hnadj
          · rcases eq_or_ne b v with rfl | hbv
            · exact absurd rfl hr.2
            · rw [if_neg hbu, if_neg hbv, hav]
              exact hmem
      · rw [if_neg hav] at hb
        have hmem : a ∈ g.adjOf b := hsym a ha b hb
        rcases eq_or_ne b u with rfl | hbu
        · rw [if_pos rfl]
          exact List.mem_cons_of_mem _ hmem
        · rcases eq_or_ne b v with rfl | hbv
          · rw [if_neg hbu, if_pos rfl]
            exact List.mem_cons_of_mem _ hmem
          · rw [if_neg hbu, if_neg hbv]
            exact hmem

theorem add_edge_success_of (g : LabelledGraph) (u v : ℕ)
    (hne : u ≠ v) (hnadj : v ∉ g.adjOf u) : (g.add_edge u v).2 = true := by
  unfold LabelledGraph.add_edge
  rw [if_neg (by push_neg; exact ⟨hne, hnadj⟩)]

theorem add_edge_missing_lt (g : LabelledGraph) (u v : ℕ) (hWF : WF g)
    (hu : u < g.n) (hv : v < g.n) (hsucc : (g.add_edge u v).2 = true) :
    missingCount (g.add_edge u v).1 < missingCount g := by
  obtain ⟨hne, hnadj⟩ := add_edge_success_props g u v hsucc
  obtain ⟨hlen, hlab, hrange, hsym⟩ := hWF
  have hadj := add_edge_adjOf g u v hlen hu hv hne hnadj
  obtain ⟨hn, _, _, _⟩ := add_edge_preserves_fields g u v
  apply Finset.card_lt_card
  constructor
  · intro p hp
    rcases p with ⟨a, b⟩
    rw [mem_missingFilter] at hp ⊢
    refine ⟨by rw [← hn]; exact hp.1, by rw [← hn]; exact hp.2.1, hp.2.2.1, ?_⟩
    exact fun hmem => hp.2.2.2 ((add_edge_extends g u v).2.2.2 a b hmem)
  · intro hsub
    rcases lt_or_gt_of_ne hne with huv | hvu
    · have hin : (u, v) ∈ ((Finset.range g.n ×ˢ Finset.range g.n).filter
          (fun p => p.1 < p.2 ∧ p.2 ∉ g.adjOf p.1)) :=
        (mem_missingFilter g u v).mpr ⟨hu, hv, huv, hnadj⟩
      have hout := hsub hin
      rw [mem_missingFilter] at hout
      apply hout.2.2.2
      rw [hadj u, if_pos rfl]
      exact List.mem_cons_self _ _
    · have hnadj2 : u ∉ g.adjOf v := fun hmem => hnadj (hsym v hv u hmem)
      have hin : (v, u) ∈ ((Finset.range g.n ×ˢ Finset.range g.n).filter
          (fun p => p.1 < p.2 ∧ p.2 ∉ g.adjOf p.1)) :=
        (mem_missingFilter g v u).mpr ⟨hv, hu, hvu, hnadj2⟩
      have hout := hsub hin
      rw [mem_missingFilter] at hout
      apply hout.2.2.2
      rw [hadj v, if_neg (Ne.symm hne), if_pos rfl]
      exact List.mem_cons_self _ _

theorem getD_mem {α : Type} (l : List α) (i : ℕ) (d : α) (h : i < l.length) :
    l.getD i d ∈ l := by
  rw [List.getD_eq_getElem?_getD, List.getElem?_eq_getElem h]
  exact List.getElem_mem h

theorem add_random_edge_missing_lt (g : LabelledGraph) (x : ℕ) (hWF : WF g)
    (hnc : g.is_complete = false) :
    missingCount (g.add_random_edge x) < missingCount g := by
  rw [add_random_edge_eq]
  have hne := (is_complete_false_iff g).mp hnc
  have hlen : 0 < g.nonAdjacentPairs.length := List.length_pos.mpr hne
  rw [if_neg (by simp [List.isEmpty_iff, hne])]
  have hmem := getD_mem g.nonAdjacentPairs (x % g.nonAdjacentPairs.length) (0, 0)
    (Nat.mod_lt _ hlen)
  rcases hp : g.nonAdjacentPairs.getD (x % g.nonAdjacentPairs.length) (0, 0) with ⟨a, b⟩
  rw [hp] at hmem
  obtain ⟨ha, hb, hab, hnadj⟩ := (mem_nonAdjacentPairs g a b).mp hmem
  exact add_edge_missing_lt g a b hWF ha hb
    (add_edge_success_of g a b (Nat.ne_of_lt hab) hnadj)

theorem add_random_edge_WF (g : LabelledGraph) (x : ℕ) (hWF : WF g) :
    WF (g.add_random_edge x) := by
  rw [add_random_edge_eq]
  split
  · exact hWF
  · rename_i hne
    rw [List.isEmpty_iff] at hne
    have hlen : 0 < g.nonAdjacentPairs.length := List.length_pos.mpr hne
    have hmem := getD_mem g.nonAdjacentPairs (x % g.nonAdjacentPairs.length) (0, 0)
      (Nat.mod_lt _ hlen)
    rcases hp : g.nonAdjacentPairs.getD (x % g.nonAdjacentPairs.length) (0, 0) with ⟨a, b⟩
    rw [hp] at hmem
    obtain ⟨ha, hb, hab, hnadj⟩ := (mem_nonAdjacentPairs g a b).mp hmem
    exact add_edge_WF g a b hWF ha hb (add_edge_success_of g a b (Nat.ne_of_lt hab) hnadj)

theorem add_random_edge_n (g : LabelledGraph) (x : ℕ) :
    (g.add_random_edge x).n = g.n :=
  (add_random_edge_extends g x).1

/-- Induction package for the mate search: well-formedness, vertex
count, and the edge-count bookkeeping `missing + added ≤ missing₀`,
together with preservation of the pool's vertex ids. -/
theorem mateSearch_measure (v vb lab : ℕ) :
    ∀ (pool : List (ℕ × ℕ)) (g : LabelledGraph), WF g → v < g.n →
    (∀ e ∈ pool, e.1 < g.n) →
    WF (mateSearch g v vb lab pool).1 ∧
    (mateSearch g v vb lab pool).1.n = g.n ∧
    missingCount (mateSearch g v vb lab pool).1 +
      (if (mateSearch g v vb lab pool).2.2 then 1 else 0) ≤ missingCount g ∧
    (mateSearch g v vb lab pool).2.1.map Prod.fst = pool.map Prod.fst := by
  intro pool
  induction pool with
  | nil =>
    intro g hWF hv hpool
    rw [mateSearch_nil]
    exact ⟨hWF, rfl, by simp, rfl⟩
  | cons e rest ih =>
    intro g hWF hv hpool
    have he : e.1 < g.n := hpool e (List.mem_cons_self _ _)
    have hrest : ∀ x ∈ rest, x.1 < g.n := fun x hx => hpool x (List.mem_cons_of_mem _ hx)
    rw [mateSearch]
    by_cases hc : mateCond g vb lab e
    · rw [if_pos hc]
      rcases hadd : g.add_edge v e.1 with ⟨g1, b⟩
      cases b
      · have hg1 : g1 = g := by
          have h0 := add_edge_fst_of_false g v e.1
          rw [hadd] at h0
          exact h0 rfl
        subst hg1
        have := ih g1 hWF hv hrest
        simp only [List.map_cons]
        exact ⟨this.1, this.2.1, le_trans this.2.2.1 (by simp), by rw [this.2.2.2]⟩
      · have hs2 : (g.add_edge v e.1).2 = true := by rw [hadd]
        have hWF1 : WF g1 := by
          have := add_edge_WF g v e.1 hWF hv he hs2
          rw [hadd] at this
          exact this
        have hlt : missingCount g1 < missingCount g := by
          have := add_edge_missing_lt g v e.1 hWF hv he hs2
          rw [hadd] at this
          exact this
        have hn1 : g1.n = g.n := by
          have := (add_edge_preserves_fields g v e.1).1
          rw [hadd] at this
          exact this
        exact ⟨hWF1, hn1, by simp; omega, by simp⟩
    · rw [if_neg hc]
      have := ih g hWF hv hrest
      simp only [List.map_cons]
      exact ⟨this.1, this.2.1, le_trans this.2.2.1 (by simp), by rw [this.2.2.2]⟩

theorem processLabels_measure (v vb : ℕ) (count : ℕ) :
    ∀ (defs : ℕ) (g : LabelledGraph) (rest : List (ℕ × ℕ)) (acc : ℕ),
    WF g → v < g.n → (∀ e ∈ rest, e.1 < g.n) →
    WF (processLabels v vb count defs g rest acc).1 ∧
    (processLabels v vb count defs g rest acc).1.n = g.n ∧
    missingCount (processLabels v vb count defs g rest acc).1 +
      (processLabels v vb count defs g rest acc).2.2 ≤ missingCount g + acc ∧
    (processLabels v vb count defs g rest acc).2.1.map Prod.fst = rest.map Prod.fst := by
  induction count with
  | zero =>
    intro defs g rest acc hWF hv hrest
    exact ⟨hWF, rfl, by simp [processLabels], rfl⟩
  | succ count ih =>
    intro defs g rest acc hWF hv hrest
    rw [processLabels]
    have hms := mateSearch_measure v vb (greedyNextLabel defs) rest g hWF hv hrest
    have hrest2 : ∀ e ∈ (mateSearch g v vb (greedyNextLabel defs) rest).2.1, e.1 < g.n := by
      intro e hee
      have : e.1 ∈ rest.map Prod.fst := by
        rw [← hms.2.2.2]
        exact List.mem_map_of_mem _ hee
      rcases List.mem_map.mp this with ⟨x, hx, hxe⟩
      rw [← hxe]
      exact hrest x hx
  -- continue below
    have hrest3 : ∀ e ∈ (mateSearch g v vb (greedyNextLabel defs) rest).2.1,
        e.1 < (mateSearch g v vb (greedyNextLabel defs) rest).1.n := by
      rw [hms.2.1]
      exact hrest2
    have hv3 : v < (mateSearch g v vb (greedyNextLabel defs) rest).1.n := by
      rw [hms.2.1]
      exact hv
    have hstep := ih (greedyClearStep defs (greedyNextLabel defs))
      (mateSearch g v vb (greedyNextLabel defs) rest).1
      (mateSearch g v vb (greedyNextLabel defs) rest).2.1
      (if (mateSearch g v vb (greedyNextLabel defs) rest).2.2 then acc + 1 else acc)
      hms.1 hv3 hrest3
    refine ⟨hstep.1, by rw [hstep.2.1, hms.2.1], ?_, by rw [hstep.2.2.2, hms.2.2.2]⟩
    have h1 := hstep.2.2.1
    have h2 := hms.2.2.1
    by_cases hb : (mateSearch g v vb (greedyNextLabel defs) rest).2.2
    · rw [hb] at h1 h2 ⊢
      simp only [if_pos] at h1 h2 ⊢
      omega
    · rw [Bool.not_eq_true] at hb
      rw [hb] at h1 h2 ⊢
      simp only [Bool.false_eq_true, if_false] at h1 h2 ⊢
      omega

theorem processPool_measure (g : LabelledGraph) (pool : List (ℕ × ℕ)) (acc : ℕ) :
    WF g → (∀ e ∈ pool, e.1 < g.n) →
    WF (processPool g pool acc).1 ∧
    (processPool g pool acc).1.n = g.n ∧
    missingCount (processPool g pool acc).1 + (processPool g pool acc).2 ≤
      missingCount g + acc := by
  induction g, pool, acc using processPool.induct with
  | case1 g acc =>
    intro hWF _
    rw [processPool]
    exact ⟨hWF, rfl, le_refl _⟩
  | case2 g v defs rest acc vb res ih =>
    intro hWF hpool
    rw [processPool]
    have hv : v < g.n := hpool (v, defs) (List.mem_cons_self _ _)
    have hrest : ∀ e ∈ rest, e.1 < g.n := fun e he => hpool e (List.mem_cons_of_mem _ he)
    have hpl := processLabels_measure v (labelBitmask (g.labelOf v)) (popcount defs)
      defs g rest acc hWF hv hrest
    have hrest2 : ∀ e ∈ (processLabels v (labelBitmask (g.labelOf v)) (popcount defs)
        defs g rest acc).2.1,
        e.1 < (processLabels v (labelBitmask (g.labelOf v)) (popcount defs)
          defs g rest acc).1.n := by
      intro e hee
      rw [hpl.2.1]
      have : e.1 ∈ rest.map Prod.fst := by
        rw [← hpl.2.2.2]
        exact List.mem_map_of_mem _ hee
      rcases List.mem_map.mp this with ⟨x, hx, hxe⟩
      rw [← hxe]
      exact hrest x hx
    have hstep := ih hpl.1 hrest2
    exact ⟨hstep.1, by rw [hstep.2.1, hpl.2.1], le_trans hstep.2.2 hpl.2.2.1⟩

theorem listSwap_mem (xs : List (ℕ × ℕ)) (i j : ℕ) (x : ℕ × ℕ)
    (h : x ∈ listSwap xs i j) : x ∈ xs := by
  unfold listSwap at h
  split at h
  · rename_i hij
    rcases List.mem_or_eq_of_mem_set h with h2 | h2
    · rcases List.mem_or_eq_of_mem_set h2 with h3 | h3
      · exact h3
      · rw [h3]
        exact getD_mem _ _ _ hij.2
    · rw [h2]
      exact getD_mem _ _ _ hij.1
  · exact h

theorem shuffleGo_mem (r : ℕ → ℕ) :
    ∀ (steps i k : ℕ) (xs : List (ℕ × ℕ)) (x : ℕ × ℕ),
    x ∈ (shuffleGo r steps i k xs).1 → x ∈ xs := by
  intro steps
  induction steps with
  | zero => intro i k xs x h; exact h
  | succ steps ih =>
    intro i k xs x h
    exact listSwap_mem _ _ _ _ (ih (i + 1) (k + 1) _ x h)

theorem randomShuffle_mem (xs : List (ℕ × ℕ)) (r : ℕ → ℕ) (k : ℕ) (x : ℕ × ℕ)
    (h : x ∈ (randomShuffle xs r k).1) : x ∈ xs :=
  shuffleGo_mem r _ _ _ _ _ h

/-- Explicit form of `run_greedy_iteration`. -/
theorem run_greedy_iteration_eq (g : LabelledGraph) (α : ℚ) (r : ℕ → ℕ) (k : ℕ) :
    g.run_greedy_iteration α r k =
      ((processPool g (randomShuffle ((List.range g.n).filterMap (fun i =>
          if (g.get_neighbourhood_ld i).get_deficiencies g.get_global_ld α > 0
          then some (i, (g.get_neighbourhood_ld i).get_deficiencies g.get_global_ld α)
          else none)) r k).1 0).1,
        (processPool g (randomShuffle ((List.range g.n).filterMap (fun i =>
          if (g.get_neighbourhood_ld i).get_deficiencies g.get_global_ld α > 0
          then some (i, (g.get_neighbourhood_ld i).get_deficiencies g.get_global_ld α)
          else none)) r k).1 0).2,
        (randomShuffle ((List.range g.n).filterMap (fun i =>
          if (g.get_neighbourhood_ld i).get_deficiencies g.get_global_ld α > 0
          then some (i, (g.get_neighbourhood_ld i).get_deficiencies g.get_global_ld α)
          else none)) r k).2) := rfl

/-- `run_greedy_iteration` preserves well-formedness and the vertex
count, and removes at least as many non-adjacent pairs as the number
of edges it reports added. -/
theorem run_greedy_iteration_measure (g : LabelledGraph) (α : ℚ) (r : ℕ → ℕ) (k : ℕ)
    (hWF : WF g) :
    WF (g.run_greedy_iteration α r k).1 ∧
    (g.run_greedy_iteration α r k).1.n = g.n ∧
    missingCount (g.run_greedy_iteration α r k).1 + (g.run_greedy_iteration α r k).2.1 ≤
      missingCount g := by
  rw [run_greedy_iteration_eq]
  dsimp only
  have hpool : ∀ e ∈ (randomShuffle ((List.range g.n).filterMap (fun i =>
      if (g.get_neighbourhood_ld i).get_deficiencies g.get_global_ld α > 0
      then some (i, (g.get_neighbourhood_ld i).get_deficiencies g.get_global_ld α)
      else none)) r k).1, e.1 < g.n := by
    intro e he
    have hmem := randomShuffle_mem _ r k e he
    rcases List.mem_filterMap.mp hmem with ⟨i, hi, hsome⟩
    have hei : e.1 = i := by
      by_cases hdef : (g.get_neighbourhood_ld i).get_deficiencies g.get_global_ld α > 0
      · rw [if_pos hdef] at hsome
        cases hsome
        rfl
      · rw [if_neg hdef] at hsome
        cases hsome
    rw [hei]
    exact List.mem_range.mp hi
  have hm := processPool_measure g _ 0 hWF hpool
  exact ⟨hm.1, hm.2.1, by have := hm.2.2; omega⟩

/-- A mate search that reports no edge left everything unchanged. -/
theorem mateSearch_no_edge (v vb lab : ℕ) :
    ∀ (pool : List (ℕ × ℕ)) (g : LabelledGraph),
    (mateSearch g v vb lab pool).2.2 = false →
    mateSearch g v vb lab pool = (g, pool, false) := by
  intro pool
  induction pool with
  | nil => intro g _; rw [mateSearch_nil]
  | cons e rest ih =>
    intro g h
    rw [mateSearch] at h ⊢
    by_cases hc : mateCond g vb lab e
    · rw [if_pos hc] at h ⊢
      rcases hadd : g.add_edge v e.1 with ⟨g1, b⟩
      cases b
      · rw [hadd] at h
        dsimp only at h ⊢
        have hg1 : g1 = g := by
          have h0 := add_edge_fst_of_false g v e.1
          rw [hadd] at h0
          exact h0 rfl
        rw [hg1] at h ⊢
        rw [ih g h]
      · rw [hadd] at h
        dsimp only at h
        exact absurd h (by decide)
    · rw [if_neg hc] at h ⊢
      dsimp only at h ⊢
      rw [ih g h]

/-- The label loop's accumulator never decreases. -/
theorem processLabels_acc_mono (v vb : ℕ) (count : ℕ) :
    ∀ (defs : ℕ) (g : LabelledGraph) (rest : List (ℕ × ℕ)) (acc : ℕ),
    acc ≤ (processLabels v vb count defs g rest acc).2.2 := by
  induction count with
  | zero => intro defs g rest acc; exact le_refl _
  | succ count ih =>
    intro defs g rest acc
    rw [processLabels]
    refine le_trans ?_ (ih ..)
    split <;> omega

/-- A label loop that added no edges left everything unchanged. -/
theorem processLabels_no_edge (v vb : ℕ) (count : ℕ) :
    ∀ (defs : ℕ) (g : LabelledGraph) (rest : List (ℕ × ℕ)) (acc : ℕ),
    (processLabels v vb count defs g rest acc).2.2 = acc →
    (processLabels v vb count defs g rest acc).1 = g ∧
      (processLabels v vb count defs g rest acc).2.1 = rest := by
  induction count with
  | zero => intro defs g rest acc _; exact ⟨rfl, rfl⟩
  | succ count ih =>
    intro defs g rest acc h
    rw [processLabels] at h ⊢
    by_cases hb : (mateSearch g v vb (greedyNextLabel defs) rest).2.2
    · rw [hb] at h
      simp only [if_pos] at h
      have := processLabels_acc_mono v vb count
        (greedyClearStep defs (greedyNextLabel defs))
        (mateSearch g v vb (greedyNextLabel defs) rest).1
        (mateSearch g v vb (greedyNextLabel defs) rest).2.1 (acc + 1)
      omega
    · rw [Bool.not_eq_true] at hb
      have hms := mateSearch_no_edge v vb (greedyNextLabel defs) rest g hb
      rw [hb] at h ⊢
      simp only [Bool.false_eq_true, if_false] at h ⊢
      rw [hms] at h ⊢
      dsimp only at h ⊢
      exact ih _ _ _ _ h

/-- The pool loop's accumulator never decreases. -/
theorem processPool_acc_mono (g : LabelledGraph) (pool : List (ℕ × ℕ)) (acc : ℕ) :
    acc ≤ (processPool g pool acc).2 := by
  induction g, pool, acc using processPool.induct with
  | case1 g acc => rw [processPool]
  | case2 g v defs rest acc vb res ih =>
    rw [processPool]
    exact le_trans (processLabels_acc_mono v (labelBitmask (g.labelOf v))
      (popcount defs) defs g rest acc) ih

/-- A pool pass that added no edges left the graph unchanged. -/
theorem processPool_no_edge (g : LabelledGraph) (pool : List (ℕ × ℕ)) (acc : ℕ) :
    (processPool g pool acc).2 = acc → (processPool g pool acc).1 = g := by
  induction g, pool, acc using processPool.induct with
  | case1 g acc => intro _; rw [processPool]
  | case2 g v defs rest acc vb res ih =>
    intro h
    rw [processPool] at h ⊢
    have hmono1 := processLabels_acc_mono v (labelBitmask (g.labelOf v)) (popcount defs)
      defs g rest acc
    have hmono2 := processPool_acc_mono
      (processLabels v (labelBitmask (g.labelOf v)) (popcount defs) defs g rest acc).1
      (processLabels v (labelBitmask (g.labelOf v)) (popcount defs) defs g rest acc).2.1
      (processLabels v (labelBitmask (g.labelOf v)) (popcount defs) defs g rest acc).2.2
    have hacc : (processLabels v (labelBitmask (g.labelOf v)) (popcount defs)
        defs g rest acc).2.2 = acc := by omega
    have hpl := processLabels_no_edge v (labelBitmask (g.labelOf v)) (popcount defs)
      defs g rest acc hacc
    refine (ih ?_).trans hpl.1
    conv_rhs => rw [hacc]
    exact h

/-- An iteration that reports zero edges added left the graph
unchanged. -/
theorem run_greedy_iteration_no_edge (g : LabelledGraph) (α : ℚ) (r : ℕ → ℕ) (k : ℕ)
    (h : (g.run_greedy_iteration α r k).2.1 = 0) :
    (g.run_greedy_iteration α r k).1 = g := by
  rw [run_greedy_iteration_eq] at h ⊢
  dsimp only at h ⊢
  exact processPool_no_edge _ _ _ h

/-- Fuel sufficiency for `hopeful`: each non-exiting iteration either
drops the `leaks_privacy` flag or removes a non-adjacent pair, so the
loop exits within `2 * missingCount + toNat lp` iterations. -/
theorem hopefulFuel_isSome (α : ℚ) (r : ℕ → ℕ) :
    ∀ (fuel : ℕ) (g : LabelledGraph) (lp : Bool) (k : ℕ), WF g →
    2 * missingCount g + lp.toNat < fuel →
    (hopefulFuel α r fuel g lp k).isSome = true := by
  intro fuel
  induction fuel with
  | zero => intro g lp k _ hlt; omega
  | succ fuel ih =>
    intro g lp k hWF hlt
    rw [hopefulFuel]
    split
    · rename_i hcond
      have hlp : lp = true := hcond.1
      have hnc : g.is_complete = false := by
        have h2 := hcond.2
        simp only [Bool.not_eq_true] at h2
        exact h2
      rw [hlp, Bool.toNat_true] at hlt
      split
      · exact ih g false k hWF (by rw [Bool.toNat_false]; omega)
      · have hdec := add_random_edge_missing_lt g (r k) hWF hnc
        exact ih _ lp (k + 1) (add_random_edge_WF g (r k) hWF)
          (by rw [hlp, Bool.toNat_true]; omega)
    · simp

/-- Fuel sufficiency for `greedy`: an iteration that adds edges removes
at least one non-adjacent pair; an iteration that adds none leaves the
graph unchanged and the fallback random edge removes one. -/
theorem greedyFuel_isSome (α : ℚ) (r : ℕ → ℕ) :
    ∀ (fuel : ℕ) (g : LabelledGraph) (lp : Bool) (k : ℕ), WF g →
    2 * missingCount g + lp.toNat < fuel →
    (greedyFuel α r fuel g lp k).isSome = true := by
  intro fuel
  induction fuel with
  | zero => intro g lp k _ hlt; omega
  | succ fuel ih =>
    intro g lp k hWF hlt
    rw [greedyFuel_succ]
    split
    · rename_i hcond
      have hlp : lp = true := hcond.1
      have hnc : g.is_complete = false := by
        have h2 := hcond.2
        simp only [Bool.not_eq_true] at h2
        exact h2
      rw [hlp, Bool.toNat_true] at hlt
      have hit := run_greedy_iteration_measure g α r k hWF
      split
      · exact ih _ false _ hit.1
          (by rw [Bool.toNat_false]; have := hit.2.2; omega)
      · split
        · rename_i hzero
          have hgg := run_greedy_iteration_no_edge g α r k hzero
          rw [hgg]
          have hdec := add_random_edge_missing_lt g
            (r (g.run_greedy_iteration α r k).2.2) hWF hnc
          exact ih _ lp _ (add_random_edge_WF g _ hWF)
            (by rw [hlp, Bool.toNat_true]; omega)
        · rename_i hzero
          exact ih _ lp _ hit.1
            (by rw [hlp, Bool.toNat_true]; have := hit.2.2; omega)
    · simp

/-- C3: `hopeful(alpha)` and `greedy(alpha)` terminate on every
well-formed input graph — the loops exit within the fuel bound derived
from the number of non-adjacent pairs — and `add_random_edge` strictly
shrinks that number whenever the graph is not complete. -/
theorem C3_strategies_terminate (g : LabelledGraph) (α : ℚ) (r1 r2 : ℕ → ℕ)
    (hWF : WF g) :
    (g.hopeful α r1).isSome = true ∧ (g.greedy α r2).isSome = true ∧
      ∀ x, g.is_complete = false →
        missingCount (g.add_random_edge x) < missingCount g := by
  refine ⟨?_, ?_, fun x hnc => add_random_edge_missing_lt g x hWF hnc⟩
  · unfold LabelledGraph.hopeful
    apply hopefulFuel_isSome α r1 _ _ _ _ hWF
    have hbit := Bool.toNat_le (! g.is_alpha_proximal α)
    omega
  · unfold LabelledGraph.greedy
    apply greedyFuel_isSome α r2 _ _ _ _ hWF
    have hbit := Bool.toNat_le (! g.is_alpha_proximal α)
    omega

/-- Witness for C3 on a concrete well-formed graph. -/
theorem C3_witness :
    (exGraphC6.hopeful (1 / 25) rSucc).isSome = true ∧
      (exGraphC6.greedy (1 / 25) rSucc).isSome = true ∧
      ∀ x, exGraphC6.is_complete = false →
        missingCount (exGraphC6.add_random_edge x) < missingCount exGraphC6 :=
  C3_strategies_terminate exGraphC6 (1 / 25) rSucc rSucc (by with_unfolding_all decide)

/-! ### Counting lemmas for `evenly_distribute_labels` -/

theorem getD_eq_getElem_of_lt {α : Type} (l : List α) (i : ℕ) (d : α)
    (h : i < l.length) : l.getD i d = l[i] := by
  rw [List.getD_eq_getElem?_getD, List.getElem?_eq_getElem h]
  rfl

theorem count_set_of_zero (labels : List ℕ) (v lab : ℕ) (hv : v < labels.length)
    (h0 : labels.getD v 0 = 0) (hlab : lab ≠ 0) :
    (labels.set v lab).count lab = labels.count lab + 1 ∧
    (labels.set v lab).count 0 + 1 = labels.count 0 ∧
    (∀ c, c ≠ 0 → c ≠ lab → (labels.set v lab).count c = labels.count c) := by
  have helt : labels[v] = 0 := by rw [← getD_eq_getElem_of_lt _ _ 0 hv]; exact h0
  have h0mem : (0 : ℕ) ∈ labels := helt ▸ labels.getElem_mem hv
  have h0pos : 0 < labels.count 0 := List.count_pos_iff.mpr h0mem
  refine ⟨?_, ?_, ?_⟩
  · rw [List.count_set _ _ _ _ hv, helt]
    have h1 : (0 == lab) = false := beq_eq_false_iff_ne.mpr (Ne.symm hlab)
    rw [h1]
    simp
  · rw [List.count_set _ _ _ _ hv, helt]
    have h2 : (lab == 0) = false := beq_eq_false_iff_ne.mpr hlab
    rw [h2]
    simp
    omega
  · intro c hc0 hclab
    rw [List.count_set _ _ _ _ hv, helt]
    have h1 : (0 == c) = false := beq_eq_false_iff_ne.mpr (Ne.symm hc0)
    have h2 : (lab == c) = false := beq_eq_false_iff_ne.mpr (Ne.symm hclab)
    rw [h1, h2]
    simp

/-- Phase-1 inner loop: assigning `cnt` vertices the (non-zero) label
`cur` moves exactly `cnt` vertices from label `0` to label `cur` and
touches nothing else. -/
theorem edlAssignCount_counts (r : ℕ → ℕ) (n cur : ℕ) (hn : 0 < n) (hcur : cur ≠ 0) :
    ∀ (fuel cnt k : ℕ) (labels labels' : List ℕ) (k' : ℕ),
    labels.length = n →
    edlAssignCount r n cur fuel cnt k labels = some (labels', k') →
    labels'.length = n ∧
    labels'.count cur = labels.count cur + cnt ∧
    labels'.count 0 + cnt = labels.count 0 ∧
    (∀ c, c ≠ 0 → c ≠ cur → labels'.count c = labels.count c) ∧
    (∀ x ∈ labels', x ∈ labels ∨ x = cur) := by
  intro fuel
  induction fuel with
  | zero =>
    intro cnt k labels labels' k' hlen h
    cases cnt with
    | zero =>
      rw [edlAssignCount] at h
      cases h
      exact ⟨hlen, by omega, by omega, fun c _ _ => rfl, fun x hx => Or.inl hx⟩
    | succ cnt => exact absurd h (by rw [edlAssignCount]; simp)
  | succ fuel ih =>
    intro cnt k labels labels' k' hlen h
    cases cnt with
    | zero =>
      rw [edlAssignCount] at h
      cases h
      exact ⟨hlen, by omega, by omega, fun c _ _ => rfl, fun x hx => Or.inl hx⟩
    | succ cnt =>
      rw [edlAssignCount] at h
      by_cases hv : labels.getD (r k % n) 0 = 0
      · rw [if_pos hv] at h
        have hvlt : r k % n < labels.length := by rw [hlen]; exact Nat.mod_lt _ hn
        have hcnt := count_set_of_zero labels (r k % n) cur hvlt hv hcur
        have hstep := ih cnt (k + 1) (labels.set (r k % n) cur) labels' k'
          (by rw [List.length_set]; exact hlen) h
        refine ⟨hstep.1, ?_, ?_, ?_, ?_⟩
        · rw [hstep.2.1, hcnt.1]
          omega
        · have := hstep.2.2.1
          omega
        · intro c hc0 hccur
          rw [hstep.2.2.2.1 c hc0 hccur, hcnt.2.2 c hc0 hccur]
        · intro x hx
          rcases hstep.2.2.2.2 x hx with hx2 | hx2
          · rcases List.mem_or_eq_of_mem_set hx2 with hx3 | hx3
            · exact Or.inl hx3
            · exact Or.inr hx3
          · exact Or.inr hx2
      · rw [if_neg hv] at h
        exact ih (cnt + 1) (k + 1) labels labels' k' hlen h

/-- Phase 1 of `evenly_distribute_labels`: labels `cur .. cur+remaining-1`
each gain exactly `vpl` vertices taken from label `0`, `labels_left`
drops by `remaining * vpl`, and no other label count changes. -/
theorem edlPhase1_counts (r : ℕ → ℕ) (n vpl fuel : ℕ) (hn : 0 < n) :
    ∀ (remaining cur ll k : ℕ) (labels labels' : List ℕ) (ll' k' : ℕ),
    cur ≠ 0 →
    labels.length = n →
    edlPhase1 r n vpl fuel remaining cur ll k labels = some (labels', ll', k') →
    labels'.length = n ∧
    (∀ c, cur ≤ c → c < cur + remaining → labels'.count c = labels.count c + vpl) ∧
    (∀ c, c ≠ 0 → (c < cur ∨ cur + remaining ≤ c) → labels'.count c = labels.count c) ∧
    labels'.count 0 + remaining * vpl = labels.count 0 ∧
    ll' = ll - remaining * vpl ∧
    (∀ x ∈ labels', x ∈ labels ∨ (cur ≤ x ∧ x < cur + remaining)) := by
  intro remaining
  induction remaining with
  | zero =>
    intro cur ll k labels labels' ll' k' hcur hlen h
    rw [edlPhase1] at h
    cases h
    refine ⟨hlen, fun c h1 h2 => by omega, fun c _ _ => rfl, by omega, by omega,
      fun x hx => Or.inl hx⟩
  | succ remaining ih =>
    intro cur ll k labels labels' ll' k' hcur hlen h
    rw [edlPhase1] at h
    rcases hassign : edlAssignCount r n cur fuel vpl k labels with _ | res
    · rw [hassign] at h
      cases h
    · rw [hassign] at h
      rcases res with ⟨labels1, k1⟩
      have ha := edlAssignCount_counts r n cur hn hcur fuel vpl k labels labels1 k1
        hlen hassign
      have hstep := ih (cur + 1) (ll - vpl) k1 labels1 labels' ll' k'
        (by omega) ha.1 h
      have hprod : (remaining + 1) * vpl = remaining * vpl + vpl := by ring
      refine ⟨hstep.1, ?_, ?_, ?_, ?_, ?_⟩
      · intro c h1 h2
        rcases eq_or_ne c cur with rfl | hne
        · rw [hstep.2.2.1 c hcur (by omega), ha.2.1]
        · rw [hstep.2.1 c (by omega) (by omega),
            ha.2.2.2.1 c (by intro h0; omega) hne]
      · intro c hc0 hrange
        rw [hstep.2.2.1 c hc0 (by omega), ha.2.2.2.1 c hc0 (by omega)]
      · have h1 := hstep.2.2.2.1
        have h2 := ha.2.2.1
        omega
      · have h1 := hstep.2.2.2.2.1
        rw [h1, Nat.sub_sub]
        omega
      · intro x hx
        rcases hstep.2.2.2.2.2 x hx with hx2 | hx2
        · rcases ha.2.2.2.2 x hx2 with hx3 | hx3
          · exact Or.inl hx3
          · exact Or.inr (by omega)
        · exact Or.inr (by omega)

theorem count_set_zero_self (labels : List ℕ) (v : ℕ) (hv : v < labels.length)
    (h0 : labels.getD v 0 = 0) :
    ∀ c, (labels.set v 0).count c = labels.count c := by
  intro c
  have helt : labels[v] = 0 := by rw [← getD_eq_getElem_of_lt _ _ 0 hv]; exact h0
  have h0mem : (0 : ℕ) ∈ labels := helt ▸ labels.getElem_mem hv
  have h0pos : 0 < labels.count 0 := List.count_pos_iff.mpr h0mem
  rw [List.count_set _ _ _ _ hv, helt]
  by_cases hc : c = 0
  · rw [hc]
    simp
    omega
  · have hbeq : (0 == c) = false := beq_eq_false_iff_ne.mpr (Ne.symm hc)
    rw [hbeq]
    simp

theorem edlPickLabel_props (r : ℕ → ℕ) (lcount : ℕ) (hl : 0 < lcount) :
    ∀ (fuel k : ℕ) (s : List ℕ) (lab k' : ℕ),
    edlPickLabel r lcount fuel k s = some (lab, k') →
    lab < lcount ∧ lab ∉ s := by
  intro fuel
  induction fuel with
  | zero => intro k s lab k' h; exact absurd h (by rw [edlPickLabel]; simp)
  | succ fuel ih =>
    intro k s lab k' h
    rw [edlPickLabel] at h
    by_cases hmem : r k % lcount ∈ s
    · rw [if_pos hmem] at h
      exact ih (k + 1) s lab k' h
    · rw [if_neg hmem] at h
      cases h
      exact ⟨Nat.mod_lt _ hl, hmem⟩

/-- The remainder loop: non-zero label counts never decrease and gain
at most one vertex each (the fresh-label set `s` rules out repeats);
label `0` loses at most `labels_left` vertices. -/
theorem edlRemainder_counts (r : ℕ → ℕ) (n lcount : ℕ) (hn : 0 < n) (hl : 0 < lcount) :
    ∀ (fuel ll k : ℕ) (s labels labels' : List ℕ) (k' : ℕ),
    labels.length = n →
    edlRemainder r n lcount fuel ll k s labels = some (labels', k') →
    labels'.length = n ∧
    (∀ c, c ≠ 0 → labels.count c ≤ labels'.count c ∧
      labels'.count c ≤ labels.count c + (if c ∈ s then 0 else 1)) ∧
    labels'.count 0 ≤ labels.count 0 ∧
    labels.count 0 ≤ labels'.count 0 + ll ∧
    (∀ x ∈ labels', x ∈ labels ∨ x < lcount) := by
  intro fuel
  induction fuel with
  | zero =>
    intro ll k s labels labels' k' hlen h
    cases ll with
    | zero =>
      rw [edlRemainder] at h
      cases h
      exact ⟨hlen, fun c _ => ⟨le_refl _, by split <;> omega⟩, le_refl _, by omega,
        fun x hx => Or.inl hx⟩
    | succ ll => exact absurd h (by rw [edlRemainder]; simp)
  | succ fuel ih =>
    intro ll k s labels labels' k' hlen h
    cases ll with
    | zero =>
      rw [edlRemainder] at h
      cases h
      exact ⟨hlen, fun c _ => ⟨le_refl _, by split <;> omega⟩, le_refl _, by omega,
        fun x hx => Or.inl hx⟩
    | succ ll =>
      rw [edlRemainder] at h
      by_cases hv : labels.getD (r k % n) 0 = 0
      · rw [if_pos hv] at h
        rcases hpick : edlPickLabel r lcount fuel (k + 1) s with _ | res
        · rw [hpick] at h
          cases h
        · rw [hpick] at h
          rcases res with ⟨lab, k1⟩
          have hp := edlPickLabel_props r lcount hl fuel (k + 1) s lab k1 hpick
          have hvlt : r k % n < labels.length := by rw [hlen]; exact Nat.mod_lt _ hn
          by_cases hlab0 : lab = 0
          · rw [hlab0] at h
            have hunch := count_set_zero_self labels (r k % n) hvlt hv
            have hstep := ih ll k1 (0 :: s) (labels.set (r k % n) 0) labels' k'
              (by rw [List.length_set]; exact hlen) h
            refine ⟨hstep.1, ?_, ?_, ?_, ?_⟩
            · intro c hc0
              have hb := hstep.2.1 c hc0
              rw [hunch c] at hb
              have hmem : (c ∈ (0 : ℕ) :: s) ↔ c ∈ s := by
                simp [List.mem_cons, hc0]
              rcases hb with ⟨hb1, hb2⟩
              refine ⟨hb1, ?_⟩
              by_cases hcs : c ∈ s
              · rw [if_pos hcs]
                rw [if_pos (hmem.mpr hcs)] at hb2
                exact hb2
              · rw [if_neg hcs]
                rw [if_neg (fun hx => hcs (hmem.mp hx))] at hb2
                exact hb2
            · have := hstep.2.2.1
              rw [hunch 0] at this
              exact this
            · have := hstep.2.2.2.1
              rw [hunch 0] at this
              omega
            · intro x hx
              rcases hstep.2.2.2.2 x hx with hx2 | hx2
              · rcases List.mem_or_eq_of_mem_set hx2 with hx3 | hx3
                · exact Or.inl hx3
                · rw [hx3]
                  exact Or.inr hl
              · exact Or.inr hx2
          · have hcnt := count_set_of_zero labels (r k % n) lab hvlt hv hlab0
            have hstep := ih ll k1 (lab :: s) (labels.set (r k % n) lab) labels' k'
              (by rw [List.length_set]; exact hlen) h
            refine ⟨hstep.1, ?_, ?_, ?_, ?_⟩
            · intro c hc0
              have hb := hstep.2.1 c hc0
              rcases eq_or_ne c lab with rfl | hclab
              · rw [hcnt.1] at hb
                rw [if_pos (List.mem_cons_self _ _)] at hb
                rw [if_neg hp.2]
                omega
              · rw [hcnt.2.2 c hc0 hclab] at hb
                have hmem : (c ∈ lab :: s) ↔ c ∈ s := by
                  simp [List.mem_cons, hclab]
                rcases hb with ⟨hb1, hb2⟩
                refine ⟨hb1, ?_⟩
                by_cases hcs : c ∈ s
                · rw [if_pos hcs]
                  rw [if_pos (hmem.mpr hcs)] at hb2
                  exact hb2
                · rw [if_neg hcs]
                  rw [if_neg (fun hx => hcs (hmem.mp hx))] at hb2
                  exact hb2
            · have h1 := hstep.2.2.1
              have h2 := hcnt.2.1
              omega
            · have h1 := hstep.2.2.2.1
              have h2 := hcnt.2.1
              omega
            · intro x hx
              rcases hstep.2.2.2.2 x hx with hx2 | hx2
              · rcases List.mem_or_eq_of_mem_set hx2 with hx3 | hx3
                · exact Or.inl hx3
                · rw [hx3]
                  exact Or.inr hp.1
              · exact Or.inr hx2
      · rw [if_neg hv] at h
        by_cases hskip : r (k + 1) % lcount = 0
        · rw [if_pos hskip] at h
          have hstep := ih ll (k + 2) s labels labels' k' hlen h
          exact ⟨hstep.1, hstep.2.1, hstep.2.2.1, by have := hstep.2.2.2.1; omega,
            hstep.2.2.2.2⟩
        · rw [if_neg hskip] at h
          exact ih (ll + 1) (k + 2) s labels labels' k' hlen h

/-- C8 (amended): starting from the freshly initialised all-zero
labelling, whenever `evenly_distribute_labels()` completes, every
vertex has a label in `[0, l)`; each non-zero label is assigned
`floor(n/l)` or `floor(n/l) + 1` vertices; and label `0` keeps between
`floor(n/l)` and `floor(n/l) + (n mod l)` vertices (the remainder
loop's "keep it 0" skips can leave label `0` with up to `n mod l`
extras, so the claimed exact floor-or-floor-plus-one budget can fail
for label `0`). -/
theorem C8_amended_label_counts (g g' : LabelledGraph) (r : ℕ → ℕ) (fuel : ℕ)
    (hn : 0 < g.n) (hl : 0 < g.l)
    (hinit : g.vertex_labels = List.replicate g.n 0)
    (h : g.evenly_distribute_labels r fuel = some g') :
    (∀ v, v < g.n → g'.labelOf v < g.l) ∧
    (∀ c, c ≠ 0 → c < g.l →
      g'.vertex_labels.count c = g.n / g.l ∨
        g'.vertex_labels.count c = g.n / g.l + 1) ∧
    (g.n / g.l ≤ g'.vertex_labels.count 0 ∧
      g'.vertex_labels.count 0 ≤ g.n / g.l + g.n % g.l) := by
  unfold LabelledGraph.evenly_distribute_labels at h
  dsimp only at h
  rcases hph : edlPhase1 r g.n (g.n / g.l) fuel (g.l - 1) 1 (g.n - g.n / g.l) 0
      g.vertex_labels with _ | res1
  · rw [hph] at h
    cases h
  · rw [hph] at h
    rcases res1 with ⟨labels1, ll1, k1⟩
    dsimp only at h
    rcases hrem : edlRemainder r g.n g.l fuel ll1 k1 [] labels1 with _ | res2
    · rw [hrem] at h
      cases h
    · rw [hrem] at h
      rcases res2 with ⟨labels2, k2⟩
      dsimp only at h
      cases h
      dsimp only
      have hlen0 : g.vertex_labels.length = g.n := by rw [hinit, List.length_replicate]
      have ha := edlPhase1_counts r g.n (g.n / g.l) fuel hn (g.l - 1) 1
        (g.n - g.n / g.l) 0 g.vertex_labels labels1 ll1 k1 (by omega) hlen0 hph
      have hb := edlRemainder_counts r g.n g.l hn hl fuel ll1 k1 [] labels1 labels2 k2
        ha.1 hrem
      have hcount00 : g.vertex_labels.count 0 = g.n := by
        rw [hinit, List.count_replicate]
        simp
      have hcountc0 : ∀ c, c ≠ 0 → g.vertex_labels.count c = 0 := by
        intro c hc
        rw [hinit, List.count_replicate]
        simp only [beq_iff_eq]
        rw [if_neg (Ne.symm hc)]
      have hq1 : (g.l - 1) * (g.n / g.l) = g.l * (g.n / g.l) - g.n / g.l :=
        Nat.sub_one_mul _ _
      have hq2 : g.n / g.l ≤ g.l * (g.n / g.l) := Nat.le_mul_of_pos_left _ hl
      have hq3 : g.l * (g.n / g.l) + g.n % g.l = g.n := Nat.div_add_mod g.n g.l
      have hcnt10 : labels1.count 0 = g.n / g.l + g.n % g.l := by
        have := ha.2.2.2.1
        rw [hcount00] at this
        omega
      have hll1 : ll1 = g.n % g.l := by
        have := ha.2.2.2.2.1
        rw [this, Nat.sub_sub]
        omega
      have hrange1 : 1 + (g.l - 1) = g.l := by omega
      refine ⟨?_, ?_, ?_, ?_⟩
      · intro v hv
        show labels2.getD v 0 < g.l
        have hvlt : v < labels2.length := by rw [hb.1]; exact hv
        rw [getD_eq_getElem_of_lt _ _ 0 hvlt]
        have hmem := labels2.getElem_mem hvlt
        rcases hb.2.2.2.2 _ hmem with hx | hx
        · rcases ha.2.2.2.2.2 _ hx with hx2 | hx2
          · rw [hinit] at hx2
            have := List.eq_of_mem_replicate hx2
            omega
          · omega
        · exact hx
      · intro c hc0 hcl
        have hc1 : labels1.count c = g.n / g.l := by
          rw [ha.2.1 c (by omega) (by omega), hcountc0 c hc0]
          omega
        have := hb.2.1 c hc0
        rw [hc1] at this
        rcases this with ⟨h1, h2⟩
        simp only [List.not_mem_nil, if_neg, if_false] at h2
        omega
      · have h1 := hb.2.2.2.1
        rw [hcnt10, hll1] at h1
        omega
      · have h1 := hb.2.2.1
        rw [hcnt10] at h1
        exact h1

/-- C8 counterexample: on an 8-vertex, 3-label graph the draw stream
`drawsC8` makes the remainder loop skip twice, leaving label `0` on 4
vertices although `floor(8/3) = 2`, so label `0` receives neither
`floor(n/l)` nor `floor(n/l) + 1` vertices. -/
theorem C8_counterexample :
    exGraphC8.evenly_distribute_labels drawsC8 100 = some exGraphC8Result ∧
      exGraphC8Result.vertex_labels.count 0 = 4 ∧
      exGraphC8.n / exGraphC8.l = 2 ∧ exGraphC8.n % exGraphC8.l = 2 ∧
      ¬(exGraphC8Result.vertex_labels.count 0 = exGraphC8.n / exGraphC8.l ∨
        exGraphC8Result.vertex_labels.count 0 = exGraphC8.n / exGraphC8.l + 1) := by
  with_unfolding_all decide

/-- Witness for C8 (amended) on the concrete run `drawsC8`. -/
theorem C8_witness :
    (∀ v, v < exGraphC8.n → exGraphC8Result.labelOf v < exGraphC8.l) ∧
    (∀ c, c ≠ 0 → c < exGraphC8.l →
      exGraphC8Result.vertex_labels.count c = exGraphC8.n / exGraphC8.l ∨
        exGraphC8Result.vertex_labels.count c = exGraphC8.n / exGraphC8.l + 1) ∧
    (exGraphC8.n / exGraphC8.l ≤ exGraphC8Result.vertex_labels.count 0 ∧
      exGraphC8Result.vertex_labels.count 0 ≤
        exGraphC8.n / exGraphC8.l + exGraphC8.n % exGraphC8.l) :=
  C8_amended_label_counts exGraphC8 exGraphC8Result drawsC8 100 (by decide) (by decide)
    (by decide) (by with_unfolding_all decide)

theorem getD_replicate_self {α : Type} (d : α) (n w : ℕ) :
    (List.replicate n d).getD w d = d := by
  rw [List.getD_eq_getElem?_getD]
  rcases lt_or_ge w n with hw | hw
  · rw [List.getElem?_eq_getElem (by simpa using hw), List.getElem_replicate]
    rfl
  · rw [List.getElem?_eq_none (by simpa using hw)]
    rfl

theorem add_edge_fst_of_mem (h : LabelledGraph) (u v : ℕ) (hm : v ∈ h.adjOf u) :
    (h.add_edge u v).1 = h := by
  unfold LabelledGraph.add_edge
  rw [if_pos (Or.inr hm)]

/-- Parsing one vertex line replays exactly the edges of `g` at `u`:
processing the suffix `L` of `u`'s neighbour list adds the pairs
`(u, x)` for `x ∈ L` (symmetrically) and nothing else, skipping those
already present. -/
theorem parseEdges_inv (g : LabelledGraph) (hWF : WF g)
    (u : ℕ) (hu : u < g.n) (hndu : (g.adjOf u).Nodup) :
    ∀ (L S : List ℕ) (h : LabelledGraph),
    g.adjOf u = S ++ L →
    h.n = g.n → h.adjacency_list.length = g.n →
    (∀ a b, b ∈ h.adjOf a ↔
      (b ∈ g.adjOf a ∧ (a < u ∨ b < u)) ∨ (a = u ∧ b ∈ S) ∨ (b = u ∧ a ∈ S)) →
    (∀ a, (h.adjOf a).Nodup) →
    (L.foldl (fun h2 v => (h2.add_edge u v).1) h).n = g.n ∧
    (L.foldl (fun h2 v => (h2.add_edge u v).1) h).l = h.l ∧
    (L.foldl (fun h2 v => (h2.add_edge u v).1) h).vertex_labels = h.vertex_labels ∧
    (L.foldl (fun h2 v => (h2.add_edge u v).1) h).adjacency_list.length = g.n ∧
    (∀ a b, b ∈ (L.foldl (fun h2 v => (h2.add_edge u v).1) h).adjOf a ↔
      (b ∈ g.adjOf a ∧ (a < u ∨ b < u)) ∨ (a = u ∧ b ∈ S ++ L) ∨ (b = u ∧ a ∈ S ++ L)) ∧
    (∀ a, ((L.foldl (fun h2 v => (h2.add_edge u v).1) h).adjOf a).Nodup) := by
  intro L
  induction L with
  | nil =>
    intro S h hSL hn hlen hinv hnd
    exact ⟨hn, rfl, rfl, hlen, by simpa using hinv, hnd⟩
  | cons v L ih =>
    intro S h hSL hn hlen hinv hnd
    have hvmem : v ∈ g.adjOf u := by
      rw [hSL]
      exact List.mem_append.mpr (Or.inr (List.mem_cons_self _ _))
    have hvprops := hWF.2.2.1 u hu v hvmem
    have hndSL : (S ++ v :: L).Nodup := hSL ▸ hndu
    have hvnotS : v ∉ S := by
      intro hvS
      have := List.disjoint_of_nodup_append hndSL hvS (List.mem_cons_self _ _)
      exact this
    have husym : u ∈ g.adjOf v := hWF.2.2.2 u hu v hvmem
    have hpres : v ∈ h.adjOf u ↔ v < u := by
      rw [hinv u v]
      constructor
      · rintro (⟨_, hlt⟩ | ⟨_, hvS⟩ | ⟨hvu, _⟩)
        · rcases hlt with hlt | hlt
          · omega
          · exact hlt
        · exact absurd hvS hvnotS
        · exact absurd hvu hvprops.2
      · intro hlt
        exact Or.inl ⟨hvmem, Or.inr hlt⟩
    rw [List.foldl_cons]
    by_cases hvu : v < u
    · have hmem : v ∈ h.adjOf u := hpres.mpr hvu
      have heq : (h.add_edge u v).1 = h := add_edge_fst_of_mem h u v hmem
      rw [heq]
      have hinv2 : ∀ a b, b ∈ h.adjOf a ↔
          (b ∈ g.adjOf a ∧ (a < u ∨ b < u)) ∨ (a = u ∧ b ∈ S ++ [v]) ∨
            (b = u ∧ a ∈ S ++ [v]) := by
        intro a b
        rw [hinv a b]
        constructor
        · rintro (h1 | ⟨h1, h2⟩ | ⟨h1, h2⟩)
          · exact Or.inl h1
          · exact Or.inr (Or.inl ⟨h1, by simp [h2]⟩)
          · exact Or.inr (Or.inr ⟨h1, by simp [h2]⟩)
        · rintro (h1 | ⟨h1, h2⟩ | ⟨h1, h2⟩)
          · exact Or.inl h1
          · rcases List.mem_append.mp h2 with h3 | h3
            · exact Or.inr (Or.inl ⟨h1, h3⟩)
            · have hbv : b = v := by simpa using h3
              subst hbv
              subst h1
              exact Or.inl ⟨hvmem, Or.inr hvu⟩
          · rcases List.mem_append.mp h2 with h3 | h3
            · exact Or.inr (Or.inr ⟨h1, h3⟩)
            · have hav : a = v := by simpa using h3
              subst hav
              subst h1
              exact Or.inl ⟨husym, Or.inl hvu⟩
      have hstep := ih (S ++ [v]) h (by rw [hSL]; simp) hn hlen hinv2 hnd
      refine ⟨hstep.1, hstep.2.1, hstep.2.2.1, hstep.2.2.2.1, ?_, hstep.2.2.2.2.2⟩
      intro a b
      rw [hstep.2.2.2.2.1 a b]
      simp only [List.append_assoc, List.singleton_append]
    · have hnmem : v ∉ h.adjOf u := fun hm => hvu (hpres.mp hm)
      have hvltn : v < g.n := hvprops.1
      have hvne : u ≠ v := Ne.symm hvprops.2
      have hadd := add_edge_adjOf h u v (by rw [hlen, hn]) (by rw [hn]; exact hu)
        (by rw [hn]; exact hvltn) hvne hnmem
      have hfields := add_edge_preserves_fields h u v
      have hinv2 : ∀ a b, b ∈ (h.add_edge u v).1.adjOf a ↔
          (b ∈ g.adjOf a ∧ (a < u ∨ b < u)) ∨ (a = u ∧ b ∈ S ++ [v]) ∨
            (b = u ∧ a ∈ S ++ [v]) := by
        intro a b
        rw [hadd a]
        by_cases hau : a = u
        · rw [if_pos hau]
          subst hau
          constructor
          · intro hb
            rcases List.mem_cons.mp hb with rfl | hb2
            · exact Or.inr (Or.inl ⟨rfl, by simp⟩)
            · rcases (hinv a b).mp hb2 with h1 | ⟨h1, h2⟩ | ⟨h1, h2⟩
              · exact Or.inl h1
              · exact Or.inr (Or.inl ⟨h1, by simp [h2]⟩)
              · exact Or.inr (Or.inr ⟨h1, by simp [h2]⟩)
          · rintro (h1 | ⟨h1, h2⟩ | ⟨h1, h2⟩)
            · exact List.mem_cons_of_mem _ ((hinv a b).mpr (Or.inl h1))
            · rcases List.mem_append.mp h2 with h3 | h3
              · exact List.mem_cons_of_mem _ ((hinv a b).mpr (Or.inr (Or.inl ⟨h1, h3⟩)))
              · have hbv : b = v := by simpa using h3
                rw [hbv]
                exact List.mem_cons_self _ _
            · rcases List.mem_append.mp h2 with h3 | h3
              · exact List.mem_cons_of_mem _ ((hinv a b).mpr (Or.inr (Or.inr ⟨h1, h3⟩)))
              · have hav : a = v := by simpa using h3
                exact absurd hav.symm hvprops.2
        · rw [if_neg hau]
          by_cases hav : a = v
          · rw [if_pos hav]
            subst hav
            constructor
            · intro hb
              rcases List.mem_cons.mp hb with rfl | hb2
              · exact Or.inr (Or.inr ⟨rfl, by simp⟩)
              · rcases (hinv a b).mp hb2 with h1 | ⟨h1, h2⟩ | ⟨h1, h2⟩
                · exact Or.inl h1
                · exact Or.inr (Or.inl ⟨h1, by simp [h2]⟩)
                · exact Or.inr (Or.inr ⟨h1, by simp [h2]⟩)
            · rintro (h1 | ⟨h1, h2⟩ | ⟨h1, h2⟩)
              · exact List.mem_cons_of_mem _ ((hinv a b).mpr (Or.inl h1))
              · exact absurd h1 hau
              · rcases List.mem_append.mp h2 with h3 | h3
                · exact List.mem_cons_of_mem _ ((hinv a b).mpr (Or.inr (Or.inr ⟨h1, h3⟩)))
                · rw [h1]
                  exact List.mem_cons_self _ _
          · rw [if_neg hav]
            rw [hinv a b]
            constructor
            · rintro (h1 | ⟨h1, h2⟩ | ⟨h1, h2⟩)
              · exact Or.inl h1
              · exact Or.inr (Or.inl ⟨h1, by simp [h2]⟩)
              · exact Or.inr (Or.inr ⟨h1, by simp [h2]⟩)
            · rintro (h1 | ⟨h1, h2⟩ | ⟨h1, h2⟩)
              · exact Or.inl h1
              · exact absurd h1 hau
              · rcases List.mem_append.mp h2 with h3 | h3
                · exact Or.inr (Or.inr ⟨h1, h3⟩)
                · exact absurd (by simpa using h3) hav
      have hnd2 : ∀ a, ((h.add_edge u v).1.adjOf a).Nodup := by
        intro a
        rw [hadd a]
        by_cases hau : a = u
        · rw [if_pos hau]
          subst hau
          exact List.Nodup.cons hnmem (hnd a)
        · rw [if_neg hau]
          by_cases hav : a = v
          · rw [if_pos hav]
            subst hav
            have hun : u ∉ h.adjOf a := by
              rw [hinv a u]
              rintro (⟨_, hlt⟩ | ⟨h1, _⟩ | ⟨_, h2⟩)
              · rcases hlt with hlt | hlt <;> omega
              · exact hvprops.2 h1
              · exact hvnotS h2
            exact List.Nodup.cons hun (hnd a)
          · rw [if_neg hav]
            exact hnd a
      have hstep := ih (S ++ [v]) (h.add_edge u v).1 (by rw [hSL]; simp)
        (by rw [hfields.1, hn]) (by rw [hfields.2.2.2, hlen]) hinv2 hnd2
      refine ⟨hstep.1, by rw [hstep.2.1, hfields.2.1], by rw [hstep.2.2.1, hfields.2.2.1],
        hstep.2.2.2.1, ?_, hstep.2.2.2.2.2⟩
      intro a b
      rw [hstep.2.2.2.2.1 a b]
      simp only [List.append_assoc, List.singleton_append]

theorem parseVertex_cons (h : LabelledGraph) (u lab : ℕ) (rest : List ℕ) :
    parseVertex h u (lab :: rest)
      = rest.foldl (fun h2 v => (h2.add_edge u v).1)
          { h with vertex_labels := h.vertex_labels.set u lab } := rfl

theorem adjOf_eq_nil_of_le (g : LabelledGraph)
    (hlen : g.adjacency_list.length = g.n) (a : ℕ) (ha : g.n ≤ a) :
    g.adjOf a = [] := by
  show g.adjacency_list.getD a [] = []
  rw [List.getD_eq_getElem?_getD, List.getElem?_eq_none (by rw [hlen]; exact ha)]
  rfl

theorem parseState_succ (g : LabelledGraph) (k : ℕ) :
    parseState g (k + 1) = parseVertex (parseState g k) k
      (((List.range g.n).map (fun i => g.labelOf i :: g.adjOf i)).getD k []) := by
  unfold parseState
  rw [List.range_succ, List.foldl_append, List.foldl_cons, List.foldl_nil]

/-- Invariant of the file constructor's vertex loop when fed the output
of `print`: after `k` iterations the sizes and labels of the first `k`
vertices are restored, and exactly those edges of `g` with an endpoint
below `k` are present, each stored without duplicates. -/
theorem parseState_inv (g : LabelledGraph) (hWF : WF g)
    (hnd : ∀ a, (g.adjOf a).Nodup) :
    ∀ k, k ≤ g.n →
    (parseState g k).n = g.n ∧ (parseState g k).l = g.l ∧
    (parseState g k).adjacency_list.length = g.n ∧
    (parseState g k).vertex_labels.length = g.n ∧
    (∀ w, (parseState g k).vertex_labels.getD w 0 =
      if w < k then g.vertex_labels.getD w 0 else 0) ∧
    (∀ a b, b ∈ (parseState g k).adjOf a ↔ b ∈ g.adjOf a ∧ (a < k ∨ b < k)) ∧
    (∀ a, ((parseState g k).adjOf a).Nodup) := by
  intro k
  induction k with
  | zero =>
    intro _
    have h0 : parseState g 0 =
        ⟨g.n, g.l, List.replicate g.n 0, List.replicate g.n [], 0⟩ := by
      unfold parseState
      rw [List.range_zero, List.foldl_nil]
    rw [h0]
    refine ⟨rfl, rfl, by simp, by simp, ?_, ?_, ?_⟩
    · intro w
      rw [if_neg (by omega)]
      exact getD_replicate_self 0 g.n w
    · intro a b
      show b ∈ (List.replicate g.n ([] : List ℕ)).getD a [] ↔ _
      rw [getD_replicate_self]
      simp
    · intro a
      show ((List.replicate g.n ([] : List ℕ)).getD a []).Nodup
      rw [getD_replicate_self]
      exact List.nodup_nil
  | succ k ih =>
    intro hk1
    have hk : k < g.n := hk1
    obtain ⟨hn, hl, hlen, hllen, hlab, hadj, hnds⟩ := ih (Nat.le_of_lt hk)
    have hline : ((List.range g.n).map (fun i => g.labelOf i :: g.adjOf i)).getD k []
        = g.labelOf k :: g.adjOf k := by
      rw [getD_eq_getElem_of_lt _ k []
        (by rw [List.length_map, List.length_range]; exact hk)]
      simp
    rw [parseState_succ, hline, parseVertex_cons]
    have hinv1 : ∀ a b,
        b ∈ ({ parseState g k with
          vertex_labels := (parseState g k).vertex_labels.set k (g.labelOf k) } :
            LabelledGraph).adjOf a ↔
          (b ∈ g.adjOf a ∧ (a < k ∨ b < k)) ∨ (a = k ∧ b ∈ ([] : List ℕ)) ∨
            (b = k ∧ a ∈ ([] : List ℕ)) := by
      intro a b
      simp only [List.not_mem_nil, and_false, or_false]
      exact hadj a b
    have hstep := parseEdges_inv g hWF k hk (hnd k) (g.adjOf k) []
      { parseState g k with
        vertex_labels := (parseState g k).vertex_labels.set k (g.labelOf k) }
      (List.nil_append _).symm hn hlen hinv1 hnds
    refine ⟨hstep.1, ?_, hstep.2.2.2.1, ?_, ?_, ?_, hstep.2.2.2.2.2⟩
    · rw [hstep.2.1]
      exact hl
    · rw [hstep.2.2.1]
      show ((parseState g k).vertex_labels.set k (g.labelOf k)).length = g.n
      rw [List.length_set]
      exact hllen
    · intro w
      rw [hstep.2.2.1]
      show ((parseState g k).vertex_labels.set k (g.labelOf k)).getD w 0 = _
      by_cases hw : w = k
      · subst hw
        rw [getD_set_self _ _ _ _ (by rw [hllen]; exact hk),
          if_pos (Nat.lt_succ_self w)]
        rfl
      · rw [getD_set_ne _ _ _ _ _ (Ne.symm hw), hlab w]
        by_cases hwk : w < k
        · rw [if_pos hwk, if_pos (by omega)]
        · rw [if_neg hwk, if_neg (by omega)]
    · intro a b
      rw [hstep.2.2.2.2.1 a b]
      simp only [List.nil_append]
      constructor
      · rintro (⟨h1, h2⟩ | ⟨rfl, h2⟩ | ⟨rfl, h2⟩)
        · exact ⟨h1, by omega⟩
        · exact ⟨h2, Or.inl (Nat.lt_succ_self _)⟩
        · exact ⟨hWF.2.2.2 b hk a h2, Or.inr (Nat.lt_succ_self _)⟩
      · rintro ⟨h1, h2⟩
        by_cases hak : a = k
        · subst hak
          exact Or.inr (Or.inl ⟨rfl, h1⟩)
        · by_cases hbk : b = k
          · subst hbk
            have han : a < g.n := by
              by_contra hcon
              rw [adjOf_eq_nil_of_le g hWF.1 a (by omega)] at h1
              exact absurd h1 (List.not_mem_nil _)
            exact Or.inr (Or.inr ⟨rfl, hWF.2.2.2 a han b h1⟩)
          · exact Or.inl ⟨h1, by omega⟩

theorem fromFile_print (g : LabelledGraph) (hn : 0 < g.n) :
    LabelledGraph.fromFile g.print = some (parseState g g.n) := by
  rw [show LabelledGraph.fromFile g.print
      = if g.n = 0 then none else some (parseState g g.n) from rfl,
    if_neg (by omega)]

/-- C10: round trip of serialization — for every well-formed graph with
at least one vertex (adjacency stored once per endpoint, i.e. without
duplicates, as the constructors guarantee), writing it with `print` and
constructing a new graph from the produced text yields a graph with the
same vertex count, the same label count, the same label for every
vertex, and the same adjacency set for every vertex, each undirected
edge again stored once at both endpoints. -/
theorem C10_round_trip (g : LabelledGraph) (hWF : WF g)
    (hnd : ∀ a, (g.adjOf a).Nodup) (hn : 0 < g.n) :
    ∃ g', LabelledGraph.fromFile g.print = some g' ∧
      g'.n = g.n ∧ g'.l = g.l ∧ g'.vertex_labels = g.vertex_labels ∧
      (∀ a b, b ∈ g'.adjOf a ↔ b ∈ g.adjOf a) ∧
      (∀ a, (g'.adjOf a).Nodup) := by
  obtain ⟨h1, h2, h3, h4, h5, h6, h7⟩ := parseState_inv g hWF hnd g.n (le_refl _)
  refine ⟨parseState g g.n, fromFile_print g hn, h1, h2, ?_, ?_, h7⟩
  · apply List.ext_getElem
    · rw [h4, hWF.2.1]
    · intro i hi1 hi2
      have hgi : i < g.n := by rw [h4] at hi1; exact hi1
      have hcal := h5 i
      rw [if_pos hgi, getD_eq_getElem_of_lt _ _ _ hi1,
        getD_eq_getElem_of_lt _ _ _ hi2] at hcal
      exact hcal
  · intro a b
    rw [h6 a b]
    constructor
    · exact fun h => h.1
    · intro hb
      refine ⟨hb, ?_⟩
      by_cases ha : a < g.n
      · exact Or.inl ha
      · rw [adjOf_eq_nil_of_le g hWF.1 a (by omega)] at hb
        exact absurd hb (List.not_mem_nil _)

theorem C10_witness :
    WF exGraphC10 ∧ (∀ a, (exGraphC10.adjOf a).Nodup) ∧ 0 < exGraphC10.n ∧
    ∃ g', LabelledGraph.fromFile exGraphC10.print = some g' ∧
      g'.n = exGraphC10.n ∧ g'.l = exGraphC10.l ∧
      g'.vertex_labels = exGraphC10.vertex_labels ∧
      (∀ a b, b ∈ g'.adjOf a ↔ b ∈ exGraphC10.adjOf a) ∧
      (∀ a, (g'.adjOf a).Nodup) := by
  have hWF : WF exGraphC10 := by with_unfolding_all decide
  have hnd : ∀ a, (exGraphC10.adjOf a).Nodup := by
    intro a
    rcases Nat.lt_or_ge a 4 with ha | ha
    · interval_cases a <;> with_unfolding_all decide
    · rw [adjOf_eq_nil_of_le exGraphC10 rfl a ha]
      exact List.nodup_nil
  exact ⟨hWF, hnd, by with_unfolding_all decide,
    C10_round_trip exGraphC10 hWF hnd (by with_unfolding_all decide)⟩
